import Mathlib

/-!
Verification of the tic-tac-toe state-space engine: a shallow embedding of
`SymmetryUtils`, `TicTacToeState`, `StateGenerator`, `StateGraph` and the
minimax probability routine, together with proofs about the embedded code.

Modelling conventions:
* A board configuration (JS: array of 9 numbers) is a `List Nat`.
* The `id` string (digits joined) is modelled by the digit list itself, and
  `decimalId = parseInt(id, 3)` by `ofDigits3`.  For digit lists the string
  order used by `getCanonicalForm` (lexicographic comparison of 9-character
  digit strings) agrees with numeric order of the base-3 value, so canonical
  forms are modelled as the minimal `ofDigits3` value over the 8 symmetries.
* JS `Map` objects (canonical index, graph, minimax cache) are modelled as
  association lists/explicit state passing; `throw` is modelled by `Option`.
-/

namespace TicTacToe

/-- Board configurations: ordered sequences of cell values (0 empty, 1 X, 2 O). -/
abbrev Config := List Nat

/-- Value of a digit list read as a base-3 numeral, most significant first.
Models `parseInt(config.join(''), 3)`. -/
def ofDigits3 (l : List Nat) : Nat := l.foldl (fun a d => a * 3 + d) 0

/-- The 9-digit base-3 representation of `n`, left-padded with zeros; models
`i.toString(3).padStart(9, '0').split('').map(Number)` for `i < 3^9`. -/
def toDigits9 (n : Nat) : List Nat :=
  [n / 6561 % 3, n / 2187 % 3, n / 729 % 3, n / 243 % 3, n / 81 % 3,
   n / 27 % 3, n / 9 % 3, n / 3 % 3, n % 3]

/-- SymmetryUtils.rotate90, index mapping [6,3,0,7,4,1,8,5,2].  The transforms
are defined by matching on 9-element lists; the fallback branch is unreachable
because every caller passes a 9-element configuration. -/
def rotate90 : Config → Config
  | [c0, c1, c2, c3, c4, c5, c6, c7, c8] => [c6, c3, c0, c7, c4, c1, c8, c5, c2]
  | l => l

/-- SymmetryUtils.rotate180, index mapping [8,7,6,5,4,3,2,1,0]. -/
def rotate180 : Config → Config
  | [c0, c1, c2, c3, c4, c5, c6, c7, c8] => [c8, c7, c6, c5, c4, c3, c2, c1, c0]
  | l => l

/-- SymmetryUtils.rotate270, index mapping [2,5,8,1,4,7,0,3,6]. -/
def rotate270 : Config → Config
  | [c0, c1, c2, c3, c4, c5, c6, c7, c8] => [c2, c5, c8, c1, c4, c7, c0, c3, c6]
  | l => l

/-- SymmetryUtils.reflectHorizontal, index mapping [6,7,8,3,4,5,0,1,2]. -/
def reflectHorizontal : Config → Config
  | [c0, c1, c2, c3, c4, c5, c6, c7, c8] => [c6, c7, c8, c3, c4, c5, c0, c1, c2]
  | l => l

/-- SymmetryUtils.reflectVertical, index mapping [2,1,0,5,4,3,8,7,6]. -/
def reflectVertical : Config → Config
  | [c0, c1, c2, c3, c4, c5, c6, c7, c8] => [c2, c1, c0, c5, c4, c3, c8, c7, c6]
  | l => l

/-- SymmetryUtils.reflectDiagonal, index mapping [0,3,6,1,4,7,2,5,8]. -/
def reflectDiagonal : Config → Config
  | [c0, c1, c2, c3, c4, c5, c6, c7, c8] => [c0, c3, c6, c1, c4, c7, c2, c5, c8]
  | l => l

/-- SymmetryUtils.reflectAntiDiagonal, index mapping [8,5,2,7,4,1,6,3,0]. -/
def reflectAntiDiagonal : Config → Config
  | [c0, c1, c2, c3, c4, c5, c6, c7, c8] => [c8, c5, c2, c7, c4, c1, c6, c3, c0]
  | l => l

/-- SymmetryUtils.getAllSymmetries: identity plus the 7 named transforms,
in the fixed source order. -/
def getAllSymmetries (c : Config) : List Config :=
  [c, rotate90 c, rotate180 c, rotate270 c,
   reflectHorizontal c, reflectVertical c, reflectDiagonal c, reflectAntiDiagonal c]

/-- SymmetryUtils.getCanonicalForm: the source stringifies the 8 symmetries and
reduces with `current < min ? current : min` starting from the first element.
For 9-digit strings over 0..2 the string order is the numeric base-3 order, so
the canonical form is modelled as the minimal `ofDigits3` value. -/
def canonicalNat (c : Config) : Nat :=
  let syms := (getAllSymmetries c).map ofDigits3
  syms.foldl (fun m cur => if cur < m then cur else m) (syms.headD 0)

/-- The 8 winning lines of `_calculateWinners` (rows, columns, diagonals). -/
def winningLineIdx : List (Nat × Nat × Nat) :=
  [(0, 1, 2), (3, 4, 5), (6, 7, 8), (0, 3, 6), (1, 4, 7), (2, 5, 8), (0, 4, 8), (2, 4, 6)]

/-- Cell access `config[i]`; all callers index 9-element configurations at
indices 0..8, so the out-of-range default is never observed. -/
def cell (c : Config) (i : Nat) : Nat := c.getD i 0

/-- One line test of `_calculateWinners`: all three cells equal and nonzero. -/
def lineWon (c : Config) (ln : Nat × Nat × Nat) : Bool :=
  cell c ln.1 != 0 && cell c ln.1 == cell c ln.2.1 && cell c ln.1 == cell c ln.2.2

/-- First-insertion-order set insertion, modelling `Set.add`. -/
def insertUniq (l : List Nat) (x : Nat) : List Nat := if x ∈ l then l else l ++ [x]

/-- The `winners` array of `_calculateWinners`: the distinct values owning a
complete line, in first-seen order (JS `Set` iteration order). -/
def winners (c : Config) : List Nat :=
  (winningLineIdx.filter (lineWon c)).foldl (fun acc ln => insertUniq acc (cell c ln.1)) []

/-- The `hasWinner` flag. -/
def hasWinner (c : Config) : Bool := winners c != []

/-- Absolute difference, modelling `Math.abs(count1 - count2)`. -/
def absDiff (a b : Nat) : Nat := max a b - min a b

/-- TicTacToeState._checkValid (lax validity). -/
def isValid (c : Config) : Bool :=
  if c.count 0 + (c.count 1 + c.count 2) ≠ 9 then false
  else if 1 < absDiff (c.count 1) (c.count 2) then false
  else true

/-- TicTacToeState._checkValidFirstPlayerX (strict validity assuming X starts).
The source guards the two winner checks by `winnerInfo.hasWinner`, which is kept
here as the `winners c ≠ []` conjunct. -/
def isValidFirstPlayerX (c : Config) : Bool :=
  if c.count 1 < c.count 2 ∨ c.count 1 > c.count 2 + 1 then false
  else if 1 < (winners c).length ∧ 1 ∈ winners c ∧ 2 ∈ winners c then false
  else if winners c ≠ [] ∧ 1 ∈ winners c ∧ c.count 1 ≤ c.count 2 then false
  else if winners c ≠ [] ∧ 2 ∈ winners c ∧ c.count 1 ≠ c.count 2 then false
  else true

/-- The lax `nextPlayer` field.  The source distinguishes `null` (invalid) from
`undefined` (equal counts); both are falsy and are modelled as `none`, which is
exactly how `makeMove` consumes them (`this.nextPlayer || 1`). -/
def nextPlayer (c : Config) : Option Nat :=
  if !isValid c then none
  else if c.count 1 == c.count 2 then none
  else if c.count 1 > c.count 2 then some 2 else some 1

/-- The strict `nextPlayerFirstPlayerX` field. -/
def nextPlayerFirstPlayerX (c : Config) : Option Nat :=
  if !isValidFirstPlayerX c then none
  else if c.count 1 == c.count 2 then some 1 else some 2

/-- The `isTerminal` flag: valid and (has a winner or no empty cells). -/
def isTerminal (c : Config) : Bool := isValid c && (hasWinner c || c.count 0 == 0)

/-- The `turnCount` field: `count1 + count2`. -/
def turnCount (c : Config) : Nat := c.count 1 + c.count 2

/-- TicTacToeState.getPossibleMoves.  The source maps each entry to its index
or -1 and filters out -1, which is the same as collecting the indices of the
empty cells in order. -/
def getPossibleMoves (c : Config) : List Nat :=
  if !isValid c || isTerminal c then []
  else c.enum.filterMap fun p => if p.2 == 0 then some p.1 else none

/-- TicTacToeState.makeMove; `throw` is modelled by `none`.  An out-of-range
`position` also errors in the source (`config[position]` is `undefined ≠ 0`),
which `c.get? pos ≠ some 0` captures.  The new state always reconstructs
without error because `set` preserves the length 9. -/
def makeMove (c : Config) (pos : Nat) : Option Config :=
  if !isValid c || isTerminal c then none
  else if c.get? pos != some 0 then none
  else some (c.set pos ((nextPlayer c).getD 1))

/-- The TicTacToeState constructor: throws unless the argument is an array of
exactly 9 elements.  Element values are not inspected.  (`Array.isArray` is
always true in this model since the input is a list.) -/
def mkState? (config : List Nat) : Option Config :=
  if config.length ≠ 9 then none else some config

/-- StateGenerator.generateAll: all 19683 configurations in base-3 counting
order. -/
def generateAll : List Config := (List.range 19683).map toDigits9

/-- StateGenerator.getStateById: parse the id as base 3 and index into the
generated sequence. -/
def getStateById (id : List Nat) : Option Config := generateAll.get? (ofDigits3 id)

/-- StateGenerator.getValidStatesFirstPlayerX. -/
def getValidStatesFirstPlayerX : List Config := generateAll.filter isValidFirstPlayerX

/-- The canonical index built by `generateAll`: a first-seen-wins map from
canonical form to representative state, modelled as an insertion-ordered
association list exactly like a JS `Map`. -/
def canonicalMapList : List (Nat × Config) :=
  generateAll.foldl
    (fun m c => if (m.map Prod.fst).contains (canonicalNat c) then m else m ++ [(canonicalNat c, c)])
    []

/-- StateGenerator.getCanonicalValidStatesFirstPlayerX: canonical
representatives whose class contains a strictly valid state. -/
def getCanonicalValidStatesFirstPlayerX : List Config :=
  (canonicalMapList.map Prod.snd).filter fun state =>
    getValidStatesFirstPlayerX.any fun s => canonicalNat s == canonicalNat state

/-- Well-formed configurations: 9 cells over the value domain 0..2. -/
def digit9 (c : Config) : Prop := c.length = 9 ∧ ∀ d ∈ c, d < 3

/-- The empty board, `TicTacToeState.empty()`. -/
def emptyBoard : Config := [0, 0, 0, 0, 0, 0, 0, 0, 0]

/-- States reachable from the empty board by sequences of legal `makeMove`
steps (the game dynamics of the source, which alternate strictly starting with
player 1 thanks to the `nextPlayer || 1` fallback). -/
inductive Reachable : Config → Prop where
  | root : Reachable emptyBoard
  | step {c c' : Config} {m : Nat} : Reachable c → makeMove c m = some c' → Reachable c'

/-- A node of `StateGraph.graph`: state, parent key, child keys, depth. -/
structure GraphNode where
  stateC : Config
  parent : Option Nat
  children : List Nat
  depth : Nat

/-- The graph `Map`, modelled as an association list keyed by the numeric
encoding of the id or canonical string. -/
abbrev Graph := List (Nat × GraphNode)

/-- Key selection of `buildTree`: canonical form or raw id. -/
def stateKey (useCanonical : Bool) (c : Config) : Nat :=
  if useCanonical then canonicalNat c else ofDigits3 c

/-- Replace the binding of `k` (the source mutates the node object held in the
`Map`; this functional update preserves the entry position). -/
def updateNode : Graph → Nat → GraphNode → Graph
  | [], _, _ => []
  | e :: es, k, nd => if e.1 = k then (k, nd) :: es else e :: updateNode es k nd

/-- The `if (!this.graph.has(stateId))` insertion of `buildTree`: a fresh
child node is appended (JS `Map.set` preserves insertion order), an existing
key leaves the map untouched. -/
def insertChild (g : Graph) (sid : Nat) (newState : Config) (curKey curDepth : Nat) : Graph :=
  if (g.lookup sid).isSome then g else g ++ [(sid, ⟨newState, some curKey, [], curDepth + 1⟩)]

/-- The `currentNode.children.push(stateId)` mutation of `buildTree`: the node
held under `curKey` gets the child key appended.  A lookup miss (which cannot
occur in the traversal) leaves the graph unchanged. -/
def pushChildKey (g : Graph) (curKey sid : Nat) : Graph :=
  match g.lookup curKey with
  | some nd => updateNode g curKey ⟨nd.stateC, nd.parent, nd.children ++ [sid], nd.depth⟩
  | none => g

/-- The inner `for (const move of possibleMoves)` loop of `buildTree`:
inserts unseen children (enqueueing them) and appends each child key to the
current node's children list.  `makeMove` never fails here because every move
comes from `getPossibleMoves`; the `none` branch is unreachable. -/
def processMoves (useCanonical : Bool) (s : Config) (curKey curDepth : Nat) :
    List Nat → Graph → List Config → Graph × List Config
  | [], g, qAcc => (g, qAcc)
  | m :: ms, g, qAcc =>
    match makeMove s m with
    | none => processMoves useCanonical s curKey curDepth ms g qAcc
    | some newState =>
      let sid := stateKey useCanonical newState
      processMoves useCanonical s curKey curDepth ms
        (pushChildKey (insertChild g sid newState curKey curDepth) curKey sid)
        (if (g.lookup sid).isSome then qAcc else qAcc ++ [newState])

/-- The `while (queue.length > 0)` loop of `buildTree`, with explicit fuel;
`none` signals fuel exhaustion (which never happens for sufficient fuel, see
the termination theorem).  The `none` branch of the node lookup mirrors a
lookup miss, which cannot occur because every queued state is keyed. -/
def buildTreeLoop (useCanonical : Bool) : Nat → List Config → Graph → Option Graph
  | 0, _, _ => none
  | _ + 1, [], g => some g
  | fuel + 1, s :: rest, g =>
    let curKey := stateKey useCanonical s
    match g.lookup curKey with
    | none => buildTreeLoop useCanonical fuel rest g
    | some nd =>
      if isTerminal s then buildTreeLoop useCanonical fuel rest g
      else
        let res := processMoves useCanonical s curKey nd.depth (getPossibleMoves s) g []
        buildTreeLoop useCanonical fuel (rest ++ res.2) res.1

/-- StateGraph.buildTree from the empty board.  The root is keyed by its raw
id in the source even in canonical mode; for the empty board id and canonical
form coincide. -/
def buildTree (fuel : Nat) (useCanonical : Bool) : Option Graph :=
  buildTreeLoop useCanonical fuel [emptyBoard] [(ofDigits3 emptyBoard, ⟨emptyBoard, none, [], 0⟩)]

/-- The minimax memo `Map`, keyed by state id. -/
abbrev Cache := List (Nat × Int)

/-- The memoized adversarial search `minimax(state, isMaximizing)` of the
load script, with the module-level cache passed explicitly.  The recursion is
written with fuel equal to the number of empty cells so that termination is
structural; on every call made by the source the fuel suffices.  The
`isMaximizing` argument is threaded exactly as in the source, which never
reads it (the branch tests `nextPlayerFirstPlayerX === 1`).  JS `-Infinity`
and `Infinity` fold seeds are modelled by the sentinels -2 and 2, which behave
identically as soon as one legal move exists since all scores lie in -1..1. -/
def minimaxF (fuel : Nat) (c : Config) (isMaximizing : Bool) (cache : Cache) : Int × Cache :=
  match cache.lookup (ofDigits3 c) with
  | some v => (v, cache)
  | none =>
    if isTerminal c then
      let score : Int :=
        if (winners c).contains 1 then 1
        else if (winners c).contains 2 then -1 else 0
      (score, (ofDigits3 c, score) :: cache)
    else
      match fuel with
      | 0 => (0, cache)
      | fuel' + 1 =>
        if nextPlayerFirstPlayerX c == some 1 then
          let r := (getPossibleMoves c).foldl
            (fun p m =>
              match makeMove c m with
              | some c2 =>
                let r2 := minimaxF fuel' c2 false p.2
                (max p.1 r2.1, r2.2)
              | none => p)
            ((-2 : Int), cache)
          (r.1, (ofDigits3 c, r.1) :: r.2)
        else
          let r := (getPossibleMoves c).foldl
            (fun p m =>
              match makeMove c m with
              | some c2 =>
                let r2 := minimaxF fuel' c2 true p.2
                (min p.1 r2.1, r2.2)
              | none => p)
            ((2 : Int), cache)
          (r.1, (ofDigits3 c, r.1) :: r.2)

/-- Entry point of the memoized search on a state. -/
def minimax (c : Config) (isMaximizing : Bool) (cache : Cache) : Int × Cache :=
  minimaxF (c.count 0) c isMaximizing cache

/-- Specification-side notion for C9: player X can force a win from `c`
(with fuel equal to the number of empty cells).  At a terminal state the game
has ended in an X win exactly when X owns a line; at an X turn some move keeps
the forced win; at an O turn every move does (and a move exists). -/
def xForcesB : Nat → Config → Bool
  | 0, c => (winners c).contains 1
  | n + 1, c =>
    if isTerminal c then (winners c).contains 1
    else if nextPlayerFirstPlayerX c == some 1 then
      (getPossibleMoves c).any fun m =>
        match makeMove c m with
        | some c2 => xForcesB n c2
        | none => false
    else
      !(getPossibleMoves c).isEmpty &&
      ((getPossibleMoves c).all fun m =>
        match makeMove c m with
        | some c2 => xForcesB n c2
        | none => true)

/-- Specification-side notion for C9: player O can force a win from `c`. -/
def oForcesB : Nat → Config → Bool
  | 0, c => (winners c).contains 2
  | n + 1, c =>
    if isTerminal c then (winners c).contains 2
    else if nextPlayerFirstPlayerX c == some 1 then
      !(getPossibleMoves c).isEmpty &&
      ((getPossibleMoves c).all fun m =>
        match makeMove c m with
        | some c2 => oForcesB n c2
        | none => true)
    else
      (getPossibleMoves c).any fun m =>
        match makeMove c m with
        | some c2 => oForcesB n c2
        | none => false

/-- Under optimal play from `c` the game ends in an X win. -/
def xForcesWin (c : Config) : Prop := xForcesB (c.count 0) c = true

/-- Under optimal play from `c` the game ends in an O win. -/
def oForcesWin (c : Config) : Prop := oForcesB (c.count 0) c = true

/-- The game-theoretic value of a state: 1, -1 or 0 according to which player
(if any) can force a win. -/
def scoreOf (c : Config) : Int :=
  if xForcesB (c.count 0) c then 1 else if oForcesB (c.count 0) c then -1 else 0

/-- Score of the state reached by move `m` (0 when the move is illegal; on the
domains where this is used the move is always legal). -/
def childScore (c : Config) (m : Nat) : Int :=
  match makeMove c m with
  | some c2 => scoreOf c2
  | none => 0

/-- Well-formedness of a `buildTree(false)` graph entry: the state is a
reachable well-formed configuration keyed by its encoded id, and a terminal
node has no children. -/
def entryOK (e : Nat × GraphNode) : Prop :=
  digit9 e.2.stateC ∧ e.1 = ofDigits3 e.2.stateC ∧ Reachable e.2.stateC ∧
    (isTerminal e.2.stateC = true → e.2.children = [])

/-- Loop invariant of `buildTreeLoop false`: every entry is well formed, keys
are distinct, the root stays keyed, every queued state is a keyed well-formed
reachable configuration, and every node is terminal, still queued, or has all
its one-move successors keyed. -/
def graphInv (g : Graph) (q : List Config) : Prop :=
  (∀ e ∈ g, entryOK e) ∧
  (g.map Prod.fst).Nodup ∧
  (g.lookup (ofDigits3 emptyBoard)).isSome = true ∧
  (∀ c ∈ q, digit9 c ∧ Reachable c ∧ (g.lookup (ofDigits3 c)).isSome = true) ∧
  (∀ e ∈ g, isTerminal e.2.stateC = true ∨ e.2.stateC ∈ q ∨
    ∀ m c', makeMove e.2.stateC m = some c' →
      (g.lookup (ofDigits3 c')).isSome = true)

/-- Soundness of the minimax memo: every cache line is the game value of the
well-formed strictly valid state encoded by its key. -/
def CacheGood (cache : Cache) : Prop :=
  ∀ e ∈ cache, ∃ c, digit9 c ∧ isValidFirstPlayerX c = true ∧
    e.1 = ofDigits3 c ∧ e.2 = scoreOf c

/-- Player `v` owns a complete line in `c` (specification wording of C1). -/
def HasLine (c : Config) (v : Nat) : Prop :=
  ∃ ln ∈ winningLineIdx, cell c ln.1 = v ∧ cell c ln.2.1 = v ∧ cell c ln.2.2 = v

/-- Counts members of `lo ≤ i < lo + n` satisfying `f`, by direct recursion on
the width; used to evaluate the canonical-class count in manageable slices. -/
def countRange' (f : Nat → Bool) (lo : Nat) : Nat → Nat
  | 0 => 0
  | n + 1 => (if f lo then 1 else 0) + countRange' f (lo + 1) n

/-- Arithmetic form of the 8 symmetry images of the configuration encoded by
`n`: digits are extracted with division and remainder and re-assembled along
each index permutation.  Agrees with `ofDigits3` of `getAllSymmetries` on
encodings of well-formed configurations (proved below). -/
def symsN (n : Nat) : List Nat :=
  let d0 := n / 6561 % 3
  let d1 := n / 2187 % 3
  let d2 := n / 729 % 3
  let d3 := n / 243 % 3
  let d4 := n / 81 % 3
  let d5 := n / 27 % 3
  let d6 := n / 9 % 3
  let d7 := n / 3 % 3
  let d8 := n % 3
  [n,
   d6 * 6561 + d3 * 2187 + d0 * 729 + d7 * 243 + d4 * 81 + d1 * 27 + d8 * 9 + d5 * 3 + d2,
   d8 * 6561 + d7 * 2187 + d6 * 729 + d5 * 243 + d4 * 81 + d3 * 27 + d2 * 9 + d1 * 3 + d0,
   d2 * 6561 + d5 * 2187 + d8 * 729 + d1 * 243 + d4 * 81 + d7 * 27 + d0 * 9 + d3 * 3 + d6,
   d6 * 6561 + d7 * 2187 + d8 * 729 + d3 * 243 + d4 * 81 + d5 * 27 + d0 * 9 + d1 * 3 + d2,
   d2 * 6561 + d1 * 2187 + d0 * 729 + d5 * 243 + d4 * 81 + d3 * 27 + d8 * 9 + d7 * 3 + d6,
   d0 * 6561 + d3 * 2187 + d6 * 729 + d1 * 243 + d4 * 81 + d7 * 27 + d2 * 9 + d5 * 3 + d8,
   d8 * 6561 + d5 * 2187 + d2 * 729 + d7 * 243 + d4 * 81 + d1 * 27 + d6 * 9 + d3 * 3 + d0]

/-- Arithmetic form of `isValidFirstPlayerX` on an encoded configuration,
phrased through piece counts and line ownership (the equivalent form proved
as claim C1). -/
def validFPXN (n : Nat) : Bool :=
  let d0 := n / 6561 % 3
  let d1 := n / 2187 % 3
  let d2 := n / 729 % 3
  let d3 := n / 243 % 3
  let d4 := n / 81 % 3
  let d5 := n / 27 % 3
  let d6 := n / 9 % 3
  let d7 := n / 3 % 3
  let d8 := n % 3
  let c1 := (if d0 = 1 then 1 else 0) + (if d1 = 1 then 1 else 0) + (if d2 = 1 then 1 else 0)
    + (if d3 = 1 then 1 else 0) + (if d4 = 1 then 1 else 0) + (if d5 = 1 then 1 else 0)
    + (if d6 = 1 then 1 else 0) + (if d7 = 1 then 1 else 0) + (if d8 = 1 then 1 else 0)
  let c2 := (if d0 = 2 then 1 else 0) + (if d1 = 2 then 1 else 0) + (if d2 = 2 then 1 else 0)
    + (if d3 = 2 then 1 else 0) + (if d4 = 2 then 1 else 0) + (if d5 = 2 then 1 else 0)
    + (if d6 = 2 then 1 else 0) + (if d7 = 2 then 1 else 0) + (if d8 = 2 then 1 else 0)
  let lineFor := fun (v : Nat) =>
    (d0 = v && d1 = v && d2 = v) || (d3 = v && d4 = v && d5 = v) || (d6 = v && d7 = v && d8 = v) ||
    (d0 = v && d3 = v && d6 = v) || (d1 = v && d4 = v && d7 = v) || (d2 = v && d5 = v && d8 = v) ||
    (d0 = v && d4 = v && d8 = v) || (d2 = v && d4 = v && d6 = v)
  let x := lineFor 1
  let o := lineFor 2
  !(c1 < c2 || c2 + 1 < c1) && !(x && o) && (!x || c2 < c1) && (!o || c1 == c2)

/-- Encoded configuration `n` is the canonical representative of its symmetry
class and that class contains a strictly valid configuration. -/
def isRepValidN (n : Nat) : Bool :=
  (symsN n).all (n ≤ ·) && (symsN n).any validFPXN

/-! ### Arithmetic facts about the base-3 encoding -/

theorem ofDigits3_poly (a0 a1 a2 a3 a4 a5 a6 a7 a8 : Nat) :
    ofDigits3 [a0, a1, a2, a3, a4, a5, a6, a7, a8] =
      a0 * 6561 + a1 * 2187 + a2 * 729 + a3 * 243 + a4 * 81 + a5 * 27 + a6 * 9 + a7 * 3 + a8 := by
  simp only [ofDigits3, List.foldl]
  ring

theorem ofDigits3_lt (a0 a1 a2 a3 a4 a5 a6 a7 a8 : Nat)
    (h0 : a0 < 3) (h1 : a1 < 3) (h2 : a2 < 3) (h3 : a3 < 3) (h4 : a4 < 3)
    (h5 : a5 < 3) (h6 : a6 < 3) (h7 : a7 < 3) (h8 : a8 < 3) :
    ofDigits3 [a0, a1, a2, a3, a4, a5, a6, a7, a8] < 19683 := by
  rw [ofDigits3_poly]
  omega

set_option maxHeartbeats 2000000 in
theorem toDigits9_ofDigits3_explicit (a0 a1 a2 a3 a4 a5 a6 a7 a8 : Nat)
    (h0 : a0 < 3) (h1 : a1 < 3) (h2 : a2 < 3) (h3 : a3 < 3) (h4 : a4 < 3)
    (h5 : a5 < 3) (h6 : a6 < 3) (h7 : a7 < 3) (h8 : a8 < 3) :
    toDigits9 (ofDigits3 [a0, a1, a2, a3, a4, a5, a6, a7, a8]) =
      [a0, a1, a2, a3, a4, a5, a6, a7, a8] := by
  rw [ofDigits3_poly]
  simp only [toDigits9, List.cons.injEq, and_true]
  refine ⟨?_, ?_, ?_, ?_, ?_, ?_, ?_, ?_, ?_⟩ <;> omega

set_option maxHeartbeats 1000000 in
theorem ofDigits3_toDigits9 {n : Nat} (h : n < 19683) : ofDigits3 (toDigits9 n) = n := by
  simp only [ofDigits3, toDigits9, List.foldl]
  omega

theorem exists_nine {c : Config} (h : c.length = 9) :
    ∃ a0 a1 a2 a3 a4 a5 a6 a7 a8, c = [a0, a1, a2, a3, a4, a5, a6, a7, a8] := by
  match c, h with
  | [a0, a1, a2, a3, a4, a5, a6, a7, a8], _ => exact ⟨_, _, _, _, _, _, _, _, _, rfl⟩

theorem digit9_explicit {a0 a1 a2 a3 a4 a5 a6 a7 a8 : Nat}
    (h : digit9 [a0, a1, a2, a3, a4, a5, a6, a7, a8]) :
    a0 < 3 ∧ a1 < 3 ∧ a2 < 3 ∧ a3 < 3 ∧ a4 < 3 ∧ a5 < 3 ∧ a6 < 3 ∧ a7 < 3 ∧ a8 < 3 := by
  obtain ⟨-, hd⟩ := h
  simp only [List.mem_cons, List.not_mem_nil, or_false, forall_eq_or_imp, forall_eq] at hd
  tauto

theorem toDigits9_ofDigits3 {c : Config} (h : digit9 c) : toDigits9 (ofDigits3 c) = c := by
  obtain ⟨a0, a1, a2, a3, a4, a5, a6, a7, a8, rfl⟩ := exists_nine h.1
  obtain ⟨h0, h1, h2, h3, h4, h5, h6, h7, h8⟩ := digit9_explicit h
  exact toDigits9_ofDigits3_explicit _ _ _ _ _ _ _ _ _ h0 h1 h2 h3 h4 h5 h6 h7 h8

theorem ofDigits3_lt_of_digit9 {c : Config} (h : digit9 c) : ofDigits3 c < 19683 := by
  obtain ⟨a0, a1, a2, a3, a4, a5, a6, a7, a8, rfl⟩ := exists_nine h.1
  obtain ⟨h0, h1, h2, h3, h4, h5, h6, h7, h8⟩ := digit9_explicit h
  exact ofDigits3_lt _ _ _ _ _ _ _ _ _ h0 h1 h2 h3 h4 h5 h6 h7 h8

theorem ofDigits3_injOn {c c' : Config} (h : digit9 c) (h' : digit9 c')
    (e : ofDigits3 c = ofDigits3 c') : c = c' := by
  have hc := toDigits9_ofDigits3 h
  have hc' := toDigits9_ofDigits3 h'
  rw [e] at hc
  exact hc.symm.trans hc'

theorem digit9_toDigits9 (n : Nat) : digit9 (toDigits9 n) := by
  refine ⟨rfl, ?_⟩
  intro d hd
  simp only [toDigits9, List.mem_cons, List.not_mem_nil, or_false] at hd
  rcases hd with h | h | h | h | h | h | h | h | h <;> subst h <;> exact Nat.mod_lt _ (by omega)

/-! ### Counting lemmas -/

theorem count_partition (l : List Nat) :
    l.count 0 + l.count 1 + l.count 2 + l.countP (fun d => decide (3 ≤ d)) = l.length := by
  induction l with
  | nil => rfl
  | cons d l ih =>
    simp only [List.count_cons, List.countP_cons, List.length_cons, beq_iff_eq,
      decide_eq_true_eq]
    split_ifs <;> omega

theorem count_sum_of_digit9 {c : Config} (h : digit9 c) :
    c.count 0 + c.count 1 + c.count 2 = 9 := by
  have hp := count_partition c
  have hz : c.countP (fun d => decide (3 ≤ d)) = 0 := by
    rw [List.countP_eq_zero]
    intro d hd
    have := h.2 d hd
    simp only [decide_eq_true_eq]
    omega
  rw [hz, h.1] at hp
  omega

theorem count_sum_lt_of_foreign {c : Config} (hlen : c.length = 9)
    (h : ∃ d ∈ c, ¬(d = 0 ∨ d = 1 ∨ d = 2)) :
    c.count 0 + c.count 1 + c.count 2 < 9 := by
  have hp := count_partition c
  obtain ⟨d, hd, hne⟩ := h
  have h3 : 3 ≤ d := by omega
  have hpos : 0 < c.countP (fun d => decide (3 ≤ d)) := by
    rw [List.countP_pos]
    exact ⟨d, hd, by simpa⟩
  omega

theorem count_set_aux :
    ∀ (l : List Nat) (i p : Nat), l.get? i = some 0 → p ≠ 0 →
      (l.set i p).count 0 + 1 = l.count 0 ∧
      (l.set i p).count p = l.count p + 1 ∧
      (∀ x, x ≠ 0 → x ≠ p → (l.set i p).count x = l.count x) := by
  intro l
  induction l with
  | nil => intro i p h; simp [List.get?] at h
  | cons a l ih =>
    intro i p h hp
    match i with
    | 0 =>
      simp only [List.get?] at h
      obtain rfl : a = 0 := Option.some.inj h
      simp only [List.set, List.count_cons, beq_iff_eq]
      refine ⟨?_, ?_, fun x hx0 hxp => ?_⟩ <;> split_ifs <;> omega
    | i + 1 =>
      simp only [List.get?] at h
      obtain ⟨h1, h2, h3⟩ := ih i p h hp
      simp only [List.set, List.count_cons]
      exact ⟨by omega, by omega, fun x hx0 hxp => by rw [h3 x hx0 hxp]⟩

theorem mem_set_of_mem :
    ∀ (l : List Nat) (i p d : Nat), d ∈ l.set i p → d = p ∨ d ∈ l := by
  intro l
  induction l with
  | nil => intro i p d h; simp [List.set] at h
  | cons a l ih =>
    intro i p d h
    match i with
    | 0 => simp only [List.set, List.mem_cons] at h ⊢; tauto
    | i + 1 =>
      simp only [List.set, List.mem_cons] at h ⊢
      rcases h with h | h
      · tauto
      · rcases ih i p d h with h | h <;> tauto

/-! ### Winner detection -/

theorem insertUniq_mem {l : List Nat} {x y : Nat} :
    x ∈ insertUniq l y ↔ x ∈ l ∨ x = y := by
  unfold insertUniq
  split
  · constructor
    · exact Or.inl
    · rintro (h | rfl)
      · exact h
      · assumption
  · simp [List.mem_append]

theorem foldl_insertUniq_mem {c : Config} {x : Nat} :
    ∀ (lns : List (Nat × Nat × Nat)) (acc : List Nat),
      (x ∈ lns.foldl (fun acc ln => insertUniq acc (cell c ln.1)) acc ↔
        x ∈ acc ∨ ∃ ln ∈ lns, cell c ln.1 = x) := by
  intro lns
  induction lns with
  | nil => simp
  | cons ln lns ih =>
    intro acc
    simp only [List.foldl_cons, ih, insertUniq_mem, List.mem_cons]
    constructor
    · rintro ((h | h) | ⟨ln', hln', h⟩)
      · exact Or.inl h
      · exact Or.inr ⟨ln, Or.inl rfl, h.symm⟩
      · exact Or.inr ⟨ln', Or.inr hln', h⟩
    · rintro (h | ⟨ln', (rfl | hln'), h⟩)
      · exact Or.inl (Or.inl h)
      · exact Or.inl (Or.inr h.symm)
      · exact Or.inr ⟨ln', hln', h⟩

theorem winners_mem {c : Config} {v : Nat} :
    v ∈ winners c ↔ ∃ ln ∈ winningLineIdx, lineWon c ln = true ∧ cell c ln.1 = v := by
  unfold winners
  rw [foldl_insertUniq_mem]
  simp only [List.not_mem_nil, false_or, List.mem_filter]
  constructor
  · rintro ⟨ln, ⟨h1, h2⟩, h3⟩; exact ⟨ln, h1, h2, h3⟩
  · rintro ⟨ln, h1, h2, h3⟩; exact ⟨ln, ⟨h1, h2⟩, h3⟩

theorem lineWon_iff {c : Config} {ln : Nat × Nat × Nat} :
    lineWon c ln = true ↔
      cell c ln.1 ≠ 0 ∧ cell c ln.1 = cell c ln.2.1 ∧ cell c ln.1 = cell c ln.2.2 := by
  simp [lineWon, and_assoc]

theorem winners_mem_iff_hasLine {c : Config} {v : Nat} (hv : v ≠ 0) :
    v ∈ winners c ↔ HasLine c v := by
  rw [winners_mem]
  unfold HasLine
  constructor
  · rintro ⟨ln, h1, h2, h3⟩
    rw [lineWon_iff] at h2
    obtain ⟨ha, hb, hc⟩ := h2
    refine ⟨ln, h1, h3, ?_, ?_⟩ <;> omega
  · rintro ⟨ln, h1, h2, h3, h4⟩
    exact ⟨ln, h1, lineWon_iff.2 ⟨by omega, by omega, by omega⟩, h2⟩

theorem winners_mem_ne_zero {c : Config} {v : Nat} (h : v ∈ winners c) : v ≠ 0 := by
  rw [winners_mem] at h
  obtain ⟨ln, -, h2, rfl⟩ := h
  exact fun e => by simp [lineWon_iff, e] at h2

theorem length_lt_of_two_mem {l : List Nat} (h1 : 1 ∈ l) (h2 : 2 ∈ l) : 1 < l.length := by
  match l with
  | [] => simp at h1
  | [a] =>
    simp only [List.mem_singleton] at h1 h2
    omega
  | _ :: _ :: _ => simp only [List.length_cons]; omega

theorem isValidFirstPlayerX_iff (c : Config) :
    isValidFirstPlayerX c = true ↔
      ((c.count 1 = c.count 2 ∨ c.count 1 = c.count 2 + 1) ∧
       ¬(HasLine c 1 ∧ HasLine c 2) ∧
       (HasLine c 1 → c.count 2 < c.count 1) ∧
       (HasLine c 2 → c.count 1 = c.count 2)) := by
  have m1 : (1 : Nat) ∈ winners c ↔ HasLine c 1 := winners_mem_iff_hasLine (by omega)
  have m2 : (2 : Nat) ∈ winners c ↔ HasLine c 2 := winners_mem_iff_hasLine (by omega)
  unfold isValidFirstPlayerX
  split_ifs with h1 h2 h3 h4
  · simp only [false_iff]
    rintro ⟨hc, -, -, -⟩
    omega
  · simp only [false_iff]
    rintro ⟨-, hb, -, -⟩
    exact hb ⟨m1.1 h2.2.1, m2.1 h2.2.2⟩
  · simp only [false_iff]
    rintro ⟨-, -, hx, -⟩
    have := hx (m1.1 h3.2.1)
    omega
  · simp only [false_iff]
    rintro ⟨-, -, -, ho⟩
    exact h4.2.2 (ho (m2.1 h4.2.1))
  · simp only [true_iff]
    refine ⟨by omega, ?_, ?_, ?_⟩
    · rintro ⟨hx, ho⟩
      exact h2 ⟨length_lt_of_two_mem (m1.2 hx) (m2.2 ho), m1.2 hx, m2.2 ho⟩
    · intro hx
      have hmem := m1.2 hx
      have hne : winners c ≠ [] := by intro e; rw [e] at hmem; simp at hmem
      by_contra hcount
      exact h3 ⟨hne, hmem, by omega⟩
    · intro ho
      have hmem := m2.2 ho
      have hne : winners c ≠ [] := by intro e; rw [e] at hmem; simp at hmem
      by_contra hcount
      exact h4 ⟨hne, hmem, hcount⟩

/-! ### Moves and makeMove -/

theorem guardT {c : Config} (h : (!isValid c || isTerminal c) = true) :
    isValid c = false ∨ isTerminal c = true := by
  rw [Bool.or_eq_true] at h
  rcases h with h | h
  · rw [Bool.not_eq_true'] at h
    exact Or.inl h
  · exact Or.inr h

theorem guardF {c : Config} (h : ¬((!isValid c || isTerminal c) = true)) :
    isValid c = true ∧ isTerminal c = false := by
  rw [Bool.not_eq_true, Bool.or_eq_false_iff] at h
  obtain ⟨h1, h2⟩ := h
  rw [Bool.not_eq_false'] at h1
  exact ⟨h1, h2⟩

theorem isValid_iff {c : Config} :
    isValid c = true ↔
      c.count 0 + (c.count 1 + c.count 2) = 9 ∧ absDiff (c.count 1) (c.count 2) ≤ 1 := by
  unfold isValid absDiff
  split_ifs with h1 h2
  · exact ⟨fun h => absurd h (by simp), fun hx => absurd hx (by omega)⟩
  · exact ⟨fun h => absurd h (by simp), fun hx => absurd hx (by omega)⟩
  · exact ⟨fun _ => by omega, fun _ => rfl⟩

theorem isTerminal_iff {c : Config} :
    isTerminal c = true ↔ isValid c = true ∧ (winners c ≠ [] ∨ c.count 0 = 0) := by
  unfold isTerminal hasWinner
  rw [Bool.and_eq_true, Bool.or_eq_true]
  constructor
  · rintro ⟨h1, h2⟩
    refine ⟨h1, ?_⟩
    rcases h2 with h | h
    · exact Or.inl (by simpa using h)
    · exact Or.inr (by simpa using h)
  · rintro ⟨h1, h2⟩
    refine ⟨h1, ?_⟩
    rcases h2 with h | h
    · exact Or.inl (by simpa using h)
    · exact Or.inr (by simpa using h)

theorem valid_nonterminal {c : Config} (hv : isValid c = true) (ht : isTerminal c = false) :
    winners c = [] ∧ c.count 0 ≠ 0 := by
  by_cases hw : winners c = []
  · refine ⟨hw, fun h0 => ?_⟩
    have hT : isTerminal c = true := isTerminal_iff.2 ⟨hv, Or.inr h0⟩
    rw [ht] at hT
    exact Bool.noConfusion hT
  · exfalso
    have hT : isTerminal c = true := isTerminal_iff.2 ⟨hv, Or.inl hw⟩
    rw [ht] at hT
    exact Bool.noConfusion hT

theorem mem_getPossibleMoves {c : Config} {m : Nat} :
    m ∈ getPossibleMoves c ↔
      isValid c = true ∧ isTerminal c = false ∧ c.get? m = some 0 := by
  unfold getPossibleMoves
  split
  case isTrue h =>
    simp only [List.not_mem_nil, false_iff]
    rintro ⟨hv, ht, -⟩
    rcases guardT h with h | h
    · rw [hv] at h; exact Bool.noConfusion h
    · rw [ht] at h; exact Bool.noConfusion h
  case isFalse h =>
    obtain ⟨hv, ht⟩ := guardF h
    simp only [hv, ht, true_and]
    rw [List.mem_filterMap]
    constructor
    · rintro ⟨⟨i, a⟩, hmem, hval⟩
      by_cases ha : a = 0
      · subst ha
        simp only [beq_self_eq_true, if_pos] at hval
        obtain rfl : i = m := Option.some.inj hval
        rw [List.mk_mem_enum_iff_get?] at hmem
        exact hmem
      · have hbe : (a == 0) = false := by simpa using ha
        rw [hbe] at hval
        simp at hval
    · intro hget
      refine ⟨(m, 0), ?_, by simp⟩
      rw [List.mk_mem_enum_iff_get?]
      exact hget

theorem makeMove_eq_some {c : Config} {pos : Nat} {c' : Config} :
    makeMove c pos = some c' ↔
      isValid c = true ∧ isTerminal c = false ∧ c.get? pos = some 0 ∧
        c' = c.set pos ((nextPlayer c).getD 1) := by
  unfold makeMove
  split
  case isTrue h =>
    constructor
    · intro he; exact Option.noConfusion he
    · rintro ⟨hv, ht, -, -⟩
      rcases guardT h with h | h
      · rw [hv] at h; exact Bool.noConfusion h
      · rw [ht] at h; exact Bool.noConfusion h
  case isFalse h =>
    obtain ⟨hv, ht⟩ := guardF h
    split
    case isTrue hne =>
      rw [bne_iff_ne] at hne
      constructor
      · intro he; exact Option.noConfusion he
      · rintro ⟨-, -, hget, -⟩; exact absurd hget hne
    case isFalse hne =>
      rw [Bool.not_eq_true, bne_eq_false_iff_eq] at hne
      simp only [hv, ht, hne, Option.some.injEq, true_and]
      exact eq_comm

theorem makeMove_eq_none {c : Config} {pos : Nat} :
    makeMove c pos = none ↔
      ¬(isValid c = true) ∨ isTerminal c = true ∨ c.get? pos ≠ some 0 := by
  unfold makeMove
  split
  case isTrue h =>
    refine ⟨fun _ => ?_, fun _ => rfl⟩
    rcases guardT h with h | h
    · exact Or.inl (by simp [h])
    · exact Or.inr (Or.inl h)
  case isFalse h =>
    obtain ⟨hv, ht⟩ := guardF h
    split
    case isTrue hne =>
      rw [bne_iff_ne] at hne
      exact ⟨fun _ => Or.inr (Or.inr hne), fun _ => rfl⟩
    case isFalse hne =>
      rw [Bool.not_eq_true, bne_eq_false_iff_eq] at hne
      constructor
      · intro he; exact Option.noConfusion he
      · rintro (h | h | h)
        · exact absurd hv h
        · rw [ht] at h; exact Bool.noConfusion h
        · exact absurd hne h

theorem nextPlayer_getD_cases (c : Config) :
    (nextPlayer c).getD 1 = 1 ∨ (nextPlayer c).getD 1 = 2 := by
  unfold nextPlayer
  split_ifs <;> simp

theorem makeMove_mem_moves {c : Config} {pos : Nat} {c' : Config}
    (h : makeMove c pos = some c') : pos ∈ getPossibleMoves c := by
  rw [makeMove_eq_some] at h
  rw [mem_getPossibleMoves]
  exact ⟨h.1, h.2.1, h.2.2.1⟩

theorem makeMove_counts {c : Config} {pos : Nat} {c' : Config}
    (h : makeMove c pos = some c') :
    c'.count 0 + 1 = c.count 0 ∧
    c'.count ((nextPlayer c).getD 1) = c.count ((nextPlayer c).getD 1) + 1 ∧
    (∀ x, x ≠ 0 → x ≠ (nextPlayer c).getD 1 → c'.count x = c.count x) := by
  rw [makeMove_eq_some] at h
  obtain ⟨-, -, hget, rfl⟩ := h
  have hp : (nextPlayer c).getD 1 ≠ 0 := by
    rcases nextPlayer_getD_cases c with h | h <;> omega
  exact count_set_aux c pos _ hget hp

theorem makeMove_turnCount {c : Config} {pos : Nat} {c' : Config}
    (h : makeMove c pos = some c') :
    turnCount c' = turnCount c + 1 ∧ turnCount c' ≤ 9 := by
  have hc := makeMove_counts h
  have hs := makeMove_eq_some.1 h
  have hv := isValid_iff.1 hs.1
  have h0 := (valid_nonterminal hs.1 hs.2.1).2
  rcases nextPlayer_getD_cases c with hp | hp <;> rw [hp] at hc
  · have h2 := hc.2.2 2 (by omega) (by omega)
    unfold turnCount
    omega
  · have h1 := hc.2.2 1 (by omega) (by omega)
    unfold turnCount
    omega

theorem makeMove_count0 {c : Config} {pos : Nat} {c' : Config}
    (h : makeMove c pos = some c') : c'.count 0 + 1 = c.count 0 :=
  (makeMove_counts h).1

theorem makeMove_digit9 {c : Config} {pos : Nat} {c' : Config}
    (hd : digit9 c) (h : makeMove c pos = some c') : digit9 c' := by
  rw [makeMove_eq_some] at h
  obtain ⟨-, -, -, rfl⟩ := h
  constructor
  · rw [List.length_set]; exact hd.1
  · intro d hmem
    rcases mem_set_of_mem c pos _ d hmem with h | h
    · rcases nextPlayer_getD_cases c with hp | hp <;> omega
    · exact hd.2 d h

theorem moves_nonempty {c : Config} (hv : isValid c = true) (ht : isTerminal c = false) :
    getPossibleMoves c ≠ [] := by
  have h0 := (valid_nonterminal hv ht).2
  have hmem : (0 : Nat) ∈ c := by
    rw [← List.count_pos_iff_mem]
    omega
  obtain ⟨i, hi⟩ := List.mem_iff_get?.1 hmem
  intro he
  have : i ∈ getPossibleMoves c := mem_getPossibleMoves.2 ⟨hv, ht, hi⟩
  rw [he] at this
  exact List.not_mem_nil _ this

/-! ### Effect of a move on cells and winners -/

theorem cell_eq_get? (c : Config) (i : Nat) : cell c i = (c.get? i).getD 0 := by
  induction c generalizing i with
  | nil => cases i <;> rfl
  | cons a l ih =>
    cases i with
    | zero => rfl
    | succ i => simpa [cell, List.getD] using ih i

theorem cell_set_self {c : Config} {pos p : Nat} (h : c.get? pos = some 0) :
    cell (c.set pos p) pos = p := by
  rw [cell_eq_get?, List.get?_set_eq]
  rw [h]
  rfl

theorem cell_set_ne {c : Config} {pos p i : Nat} (h : pos ≠ i) :
    cell (c.set pos p) i = cell c i := by
  rw [cell_eq_get?, cell_eq_get?, List.get?_eq_getElem?, List.get?_eq_getElem?,
    List.getElem?_set_ne h]

theorem winners_after_move {c : Config} {pos : Nat} {c' : Config}
    (hw : winners c = []) (h : makeMove c pos = some c') :
    ∀ v ∈ winners c', v = (nextPlayer c).getD 1 := by
  intro v hv
  obtain ⟨hval, hterm, hget, rfl⟩ := makeMove_eq_some.1 h
  rw [winners_mem] at hv
  obtain ⟨ln, hln, hwon, hcell⟩ := hv
  by_cases hpos : pos = ln.1 ∨ pos = ln.2.1 ∨ pos = ln.2.2
  · rw [lineWon_iff] at hwon
    obtain ⟨-, h21, h22⟩ := hwon
    rcases hpos with hp | hp | hp
    · rw [← hcell, ← hp, cell_set_self hget]
    · rw [← hcell, h21, ← hp, cell_set_self hget]
    · rw [← hcell, h22, ← hp, cell_set_self hget]
  · push_neg at hpos
    obtain ⟨h1, h2, h3⟩ := hpos
    exfalso
    have e1 := cell_set_ne (c := c) (p := (nextPlayer c).getD 1) h1
    have e2 := cell_set_ne (c := c) (p := (nextPlayer c).getD 1) h2
    have e3 := cell_set_ne (c := c) (p := (nextPlayer c).getD 1) h3
    rw [lineWon_iff, e1, e2, e3] at hwon
    rw [e1] at hcell
    have : v ∈ winners c := winners_mem.2 ⟨ln, hln, lineWon_iff.2 hwon, hcell⟩
    rw [hw] at this
    exact List.not_mem_nil _ this

theorem digit9_isValid {c : Config} (hd : digit9 c)
    (hx : isValidFirstPlayerX c = true) : isValid c = true := by
  have hs := count_sum_of_digit9 hd
  have hc := (isValidFirstPlayerX_iff c).1 hx
  rw [isValid_iff]
  unfold absDiff
  constructor <;> omega

theorem child_validFPX {c : Config} {pos : Nat} {c' : Config} (hd : digit9 c)
    (hx : isValidFirstPlayerX c = true) (h : makeMove c pos = some c') :
    isValidFirstPlayerX c' = true := by
  obtain ⟨hval, hterm, hget, -⟩ := makeMove_eq_some.1 h
  have hw : winners c = [] := (valid_nonterminal hval hterm).1
  have hcnt := makeMove_counts h
  have hcX := (isValidFirstPlayerX_iff c).1 hx
  have hkey : ∀ v, HasLine c' v → v ≠ 0 → v = (nextPlayer c).getD 1 := by
    intro v hvl hv0
    exact winners_after_move hw h v ((winners_mem_iff_hasLine hv0).2 hvl)
  rw [isValidFirstPlayerX_iff]
  have hnp : (c.count 1 = c.count 2 ∧ (nextPlayer c).getD 1 = 1) ∨
      (c.count 1 = c.count 2 + 1 ∧ (nextPlayer c).getD 1 = 2) := by
    unfold nextPlayer
    rw [hval]
    rcases hcX.1 with he | he
    · left
      refine ⟨he, ?_⟩
      simp only [Bool.not_true, Bool.false_eq_true, if_false]
      rw [if_pos (by simpa using he)]
      rfl
    · right
      refine ⟨he, ?_⟩
      simp only [Bool.not_true, Bool.false_eq_true, if_false]
      rw [if_neg (by simp; omega), if_pos (by omega)]
      rfl
  rcases hnp with ⟨hce, hp⟩ | ⟨hce, hp⟩ <;> rw [hp] at hcnt
  · have e2 := hcnt.2.2 2 (by omega) (by omega)
    refine ⟨by omega, ?_, ?_, ?_⟩
    · rintro ⟨hx1, hx2⟩
      have := hkey 2 hx2 (by omega)
      rw [hp] at this
      omega
    · intro hx1
      omega
    · intro hx2
      have := hkey 2 hx2 (by omega)
      rw [hp] at this
      omega
  · have e1 := hcnt.2.2 1 (by omega) (by omega)
    refine ⟨by omega, ?_, ?_, ?_⟩
    · rintro ⟨hx1, hx2⟩
      have := hkey 1 hx1 (by omega)
      rw [hp] at this
      omega
    · intro hx1
      have := hkey 1 hx1 (by omega)
      rw [hp] at this
      omega
    · intro hx2
      omega

/-! ### Claims C1, C4, C5, C6, C10 -/

/-- C1: for every 9-element configuration over 0..2, `isValidFirstPlayerX` is
true if and only if the piece counts satisfy `countA ∈ {countB, countB + 1}`,
it is not the case that both players simultaneously own winning lines, a
winning line for player A forces `countA > countB`, and a winning line for
player B forces `countA = countB`. -/
theorem c1_checkValidFirstPlayerX_spec :
    ∀ c : Config, c.length = 9 → (∀ d ∈ c, d < 3) →
      (isValidFirstPlayerX c = true ↔
        ((c.count 1 = c.count 2 ∨ c.count 1 = c.count 2 + 1) ∧
         ¬(HasLine c 1 ∧ HasLine c 2) ∧
         (HasLine c 1 → c.count 2 < c.count 1) ∧
         (HasLine c 2 → c.count 1 = c.count 2))) :=
  fun c _ _ => isValidFirstPlayerX_iff c

/-- Witness for C1 at the board X X X / O O . / . . . . -/
theorem c1_witness :
    isValidFirstPlayerX [1, 1, 1, 2, 2, 0, 0, 0, 0] = true ↔
      ((List.count 1 [1, 1, 1, 2, 2, 0, 0, 0, 0] = List.count 2 [1, 1, 1, 2, 2, 0, 0, 0, 0] ∨
        List.count 1 [1, 1, 1, 2, 2, 0, 0, 0, 0] = List.count 2 [1, 1, 1, 2, 2, 0, 0, 0, 0] + 1) ∧
       ¬(HasLine [1, 1, 1, 2, 2, 0, 0, 0, 0] 1 ∧ HasLine [1, 1, 1, 2, 2, 0, 0, 0, 0] 2) ∧
       (HasLine [1, 1, 1, 2, 2, 0, 0, 0, 0] 1 →
         List.count 2 [1, 1, 1, 2, 2, 0, 0, 0, 0] < List.count 1 [1, 1, 1, 2, 2, 0, 0, 0, 0]) ∧
       (HasLine [1, 1, 1, 2, 2, 0, 0, 0, 0] 2 →
         List.count 1 [1, 1, 1, 2, 2, 0, 0, 0, 0] = List.count 2 [1, 1, 1, 2, 2, 0, 0, 0, 0])) :=
  c1_checkValidFirstPlayerX_spec [1, 1, 1, 2, 2, 0, 0, 0, 0] (by decide) (by decide)

/-- C4: `generateAll` enumerates all 19683 configurations in base-3 counting
order: the i-th state is the 9-digit base-3 representation of i (its id), its
`decimalId` (`ofDigits3`) equals i (so deriving the configuration from the id
round-trips), and `getStateById` on that id returns the same state. -/
theorem c4_generateAll_enumeration :
    generateAll.length = 19683 ∧
    ∀ i, i < 19683 →
      generateAll.get? i = some (toDigits9 i) ∧
      digit9 (toDigits9 i) ∧
      ofDigits3 (toDigits9 i) = i ∧
      getStateById (toDigits9 i) = some (toDigits9 i) := by
  refine ⟨by simp [generateAll], fun i hi => ?_⟩
  have hget : generateAll.get? i = some (toDigits9 i) := by
    unfold generateAll
    rw [List.get?_map, List.get?_range hi]
    rfl
  refine ⟨hget, digit9_toDigits9 i, ofDigits3_toDigits9 hi, ?_⟩
  unfold getStateById
  rw [ofDigits3_toDigits9 hi]
  exact hget

/-- Witness for C4 at index 5. -/
theorem c4_witness :
    generateAll.get? 5 = some (toDigits9 5) ∧
    digit9 (toDigits9 5) ∧
    ofDigits3 (toDigits9 5) = 5 ∧
    getStateById (toDigits9 5) = some (toDigits9 5) :=
  c4_generateAll_enumeration.2 5 (by norm_num)

/-- C5 as stated is false: the constructor does not reject out-of-domain
values.  The 9-element configuration [3,0,...,0] contains the out-of-domain
value 3, yet construction succeeds. -/
theorem c5_counterexample :
    ¬(∀ cfg : List Nat, mkState? cfg = none ↔
        (cfg.length ≠ 9 ∨ ∃ d ∈ cfg, ¬(d = 0 ∨ d = 1 ∨ d = 2))) := by
  intro h
  have h2 := (h [3, 0, 0, 0, 0, 0, 0, 0, 0]).2
    (Or.inr ⟨3, by decide, by decide⟩)
  have h3 : mkState? [3, 0, 0, 0, 0, 0, 0, 0, 0] = some [3, 0, 0, 0, 0, 0, 0, 0, 0] := by decide
  rw [h3] at h2
  exact Option.noConfusion h2

/-- C5 amended: the Board State constructor raises an input-format error if
and only if the configuration is not exactly 9 elements; element values are
not validated (see C10 for what happens to out-of-domain 9-element inputs). -/
theorem c5_constructor_length_only :
    ∀ cfg : List Nat, mkState? cfg = none ↔ cfg.length ≠ 9 := by
  intro cfg
  unfold mkState?
  split_ifs with h
  · simp [h]
  · simp [h]

/-- C6: `makeMove` errors exactly when the source state is lax-invalid or
terminal or the position is not an empty cell; otherwise it returns a new
state equal to the source with `nextPlayer` (defaulting to player A when the
ambiguous equal-counts case makes `nextPlayer` undefined) written at the
position and every other cell unchanged.  The embedding is pure, so the
source configuration itself is never mutated. -/
theorem c6_makeMove_spec :
    ∀ (c : Config) (pos : Nat),
      (makeMove c pos = none ↔
        (¬(isValid c = true) ∨ isTerminal c = true ∨ c.get? pos ≠ some 0)) ∧
      (∀ c', makeMove c pos = some c' →
        c' = c.set pos ((nextPlayer c).getD 1) ∧
        c'.get? pos = some ((nextPlayer c).getD 1) ∧
        (∀ j, j ≠ pos → c'.get? j = c.get? j) ∧
        c'.length = c.length) := by
  intro c pos
  refine ⟨makeMove_eq_none, fun c' h => ?_⟩
  obtain ⟨hv, ht, hget, rfl⟩ := makeMove_eq_some.1 h
  refine ⟨rfl, ?_, ?_, by simp⟩
  · rw [List.get?_set_eq, hget]
    rfl
  · intro j hj
    rw [List.get?_eq_getElem?, List.get?_eq_getElem?, List.getElem?_set_ne (Ne.symm hj)]

/-- Witness for C6: the first move in the centre of the empty board. -/
theorem c6_witness :
    makeMove emptyBoard 4 = some [0, 0, 0, 0, 1, 0, 0, 0, 0] ∧
    [0, 0, 0, 0, 1, 0, 0, 0, 0] = emptyBoard.set 4 ((nextPlayer emptyBoard).getD 1) :=
  ⟨by decide, ((c6_makeMove_spec emptyBoard 4).2 [0, 0, 0, 0, 1, 0, 0, 0, 0] (by decide)).1⟩

/-- C10: a 9-element array containing a value outside 0..2 constructs
successfully, and the resulting state is invalid, non-terminal and has no
possible moves, because the three cell counts no longer sum to 9. -/
theorem c10_out_of_domain :
    ∀ c : Config, c.length = 9 → (∃ d ∈ c, ¬(d = 0 ∨ d = 1 ∨ d = 2)) →
      (mkState? c).isSome = true ∧ isValid c = false ∧ isTerminal c = false ∧
        getPossibleMoves c = [] := by
  intro c hlen hfor
  have hlt := count_sum_lt_of_foreign hlen hfor
  have hv : isValid c = false := by
    by_contra h
    rw [Bool.not_eq_false] at h
    have := isValid_iff.1 h
    omega
  have ht : isTerminal c = false := by
    unfold isTerminal
    rw [hv]
    rfl
  refine ⟨?_, hv, ht, ?_⟩
  · unfold mkState?
    rw [if_neg (by omega)]
    rfl
  · unfold getPossibleMoves
    rw [if_pos (by rw [hv]; rfl)]

/-- Witness for C10 at the configuration [3,0,...,0]. -/
theorem c10_witness :
    (mkState? [3, 0, 0, 0, 0, 0, 0, 0, 0]).isSome = true ∧
    isValid [3, 0, 0, 0, 0, 0, 0, 0, 0] = false ∧
    isTerminal [3, 0, 0, 0, 0, 0, 0, 0, 0] = false ∧
    getPossibleMoves [3, 0, 0, 0, 0, 0, 0, 0, 0] = [] :=
  c10_out_of_domain [3, 0, 0, 0, 0, 0, 0, 0, 0] (by decide) ⟨3, by decide, by decide⟩

/-! ### Symmetry and canonical forms -/

instance : Std.Commutative (min : Nat → Nat → Nat) := ⟨Nat.min_comm⟩

instance : Std.Associative (min : Nat → Nat → Nat) := ⟨Nat.min_assoc⟩

theorem foldmin_step (m cur : Nat) : (if cur < m then cur else m) = min m cur := by
  split <;> omega

theorem foldl_min_le_init : ∀ (l : List Nat) (a : Nat), l.foldl min a ≤ a := by
  intro l
  induction l with
  | nil => intro a; exact Nat.le_refl a
  | cons x l ih =>
    intro a
    calc (x :: l).foldl min a = l.foldl min (min a x) := rfl
    _ ≤ min a x := ih _
    _ ≤ a := Nat.min_le_left _ _

theorem foldl_min_le_mem : ∀ (l : List Nat) (a x : Nat), x ∈ l → l.foldl min a ≤ x := by
  intro l
  induction l with
  | nil => intro a x h; exact absurd h (List.not_mem_nil x)
  | cons y l ih =>
    intro a x h
    rcases List.mem_cons.1 h with rfl | h
    · calc (x :: l).foldl min a = l.foldl min (min a x) := rfl
      _ ≤ min a x := foldl_min_le_init _ _
      _ ≤ x := Nat.min_le_right _ _
    · exact ih _ x h

theorem foldl_min_mem : ∀ (l : List Nat) (a : Nat), l.foldl min a = a ∨ l.foldl min a ∈ l := by
  intro l
  induction l with
  | nil => intro a; exact Or.inl rfl
  | cons x l ih =>
    intro a
    rcases ih (min a x) with h | h
    · rcases Nat.le_total a x with hax | hax
      · rw [show (x :: l).foldl min a = l.foldl min (min a x) from rfl, h,
          Nat.min_eq_left hax]
        exact Or.inl rfl
      · rw [show (x :: l).foldl min a = l.foldl min (min a x) from rfl, h,
          Nat.min_eq_right hax]
        exact Or.inr (List.mem_cons_self x l)
    · exact Or.inr (List.mem_cons_of_mem x h)

theorem le_foldl_min : ∀ (l : List Nat) (a b : Nat), b ≤ a → (∀ x ∈ l, b ≤ x) →
    b ≤ l.foldl min a := by
  intro l
  induction l with
  | nil => intro a b h _; exact h
  | cons x l ih =>
    intro a b h hl
    refine ih _ b (Nat.le_min.2 ⟨h, hl x (List.mem_cons_self x l)⟩) fun y hy =>
      hl y (List.mem_cons_of_mem x hy)

theorem canonicalNat_eq_foldl (c : Config) :
    canonicalNat c =
      ((getAllSymmetries c).map ofDigits3).foldl min
        (((getAllSymmetries c).map ofDigits3).headD 0) := by
  unfold canonicalNat
  simp only [foldmin_step]

theorem canonicalNat_le {c s : Config} (hs : s ∈ getAllSymmetries c) :
    canonicalNat c ≤ ofDigits3 s := by
  rw [canonicalNat_eq_foldl]
  exact foldl_min_le_mem _ _ _ (List.mem_map_of_mem ofDigits3 hs)

theorem self_mem_getAllSymmetries (c : Config) : c ∈ getAllSymmetries c :=
  List.mem_cons_self _ _

theorem canonicalNat_attained (c : Config) :
    ∃ s ∈ getAllSymmetries c, canonicalNat c = ofDigits3 s := by
  rw [canonicalNat_eq_foldl]
  have hhead : ((getAllSymmetries c).map ofDigits3).headD 0 = ofDigits3 c := rfl
  rcases foldl_min_mem ((getAllSymmetries c).map ofDigits3)
      (((getAllSymmetries c).map ofDigits3).headD 0) with h | h
  · rw [h, hhead]
    exact ⟨c, self_mem_getAllSymmetries c, rfl⟩
  · obtain ⟨s, hs, he⟩ := List.mem_map.1 h
    exact ⟨s, hs, he.symm⟩

theorem getAllSymmetries_digit9 {c : Config} (h : digit9 c) :
    ∀ s ∈ getAllSymmetries c, digit9 s := by
  obtain ⟨a0, a1, a2, a3, a4, a5, a6, a7, a8, rfl⟩ := exists_nine h.1
  obtain ⟨h0, h1, h2, h3, h4, h5, h6, h7, h8⟩ := digit9_explicit h
  intro s hs
  simp only [getAllSymmetries, rotate90, rotate180, rotate270, reflectHorizontal,
    reflectVertical, reflectDiagonal, reflectAntiDiagonal, List.mem_cons,
    List.not_mem_nil, or_false] at hs
  rcases hs with rfl | rfl | rfl | rfl | rfl | rfl | rfl | rfl <;>
    exact ⟨rfl, by
      intro d hd
      simp only [List.mem_cons, List.not_mem_nil, or_false] at hd
      rcases hd with rfl | rfl | rfl | rfl | rfl | rfl | rfl | rfl | rfl <;> assumption⟩

theorem mem_getAllSymmetries_symm {c s : Config} (h9 : c.length = 9)
    (hs : s ∈ getAllSymmetries c) : c ∈ getAllSymmetries s := by
  obtain ⟨a0, a1, a2, a3, a4, a5, a6, a7, a8, rfl⟩ := exists_nine h9
  simp only [getAllSymmetries, rotate90, rotate180, rotate270, reflectHorizontal,
    reflectVertical, reflectDiagonal, reflectAntiDiagonal, List.mem_cons,
    List.not_mem_nil, or_false] at hs ⊢
  rcases hs with rfl | rfl | rfl | rfl | rfl | rfl | rfl | rfl <;>
    simp [rotate90, rotate180, rotate270, reflectHorizontal, reflectVertical,
      reflectDiagonal, reflectAntiDiagonal]

theorem canonical_invariant {c : Config} (h9 : c.length = 9) :
    ∀ s ∈ getAllSymmetries c, canonicalNat s = canonicalNat c := by
  obtain ⟨a0, a1, a2, a3, a4, a5, a6, a7, a8, rfl⟩ := exists_nine h9
  intro s hs
  simp only [getAllSymmetries, rotate90, rotate180, rotate270, reflectHorizontal,
    reflectVertical, reflectDiagonal, reflectAntiDiagonal, List.mem_cons,
    List.not_mem_nil, or_false] at hs
  rcases hs with rfl | rfl | rfl | rfl | rfl | rfl | rfl | rfl <;>
    · simp only [canonicalNat, getAllSymmetries, rotate90, rotate180, rotate270,
        reflectHorizontal, reflectVertical, reflectDiagonal, reflectAntiDiagonal,
        List.map, List.headD, List.foldl, foldmin_step, min_self]
      try ac_rfl

/-- C3: for every 9-element configuration and every one of the 8 symmetry
transforms (identity, the three rotations and the four reflections, i.e. the
members of `getAllSymmetries`), the canonical form of the transformed
configuration equals the canonical form of the original. -/
theorem c3_canonical_invariance :
    ∀ c : Config, c.length = 9 → (∀ d ∈ c, d < 3) →
      ∀ s ∈ getAllSymmetries c, canonicalNat s = canonicalNat c :=
  fun _ h9 _ => canonical_invariant h9

/-- Witness for C3: a 90-degree rotation of a one-piece board. -/
theorem c3_witness :
    canonicalNat (rotate90 [0, 0, 1, 0, 0, 0, 0, 0, 0]) =
      canonicalNat [0, 0, 1, 0, 0, 0, 0, 0, 0] :=
  c3_canonical_invariance [0, 0, 1, 0, 0, 0, 0, 0, 0] (by decide) (by decide)
    (rotate90 [0, 0, 1, 0, 0, 0, 0, 0, 0]) (by decide)

/-! ### The canonical index built by generateAll -/

theorem mem_generateAll {c : Config} (h : digit9 c) : c ∈ generateAll := by
  unfold generateAll
  rw [List.mem_map]
  exact ⟨ofDigits3 c, List.mem_range.2 (ofDigits3_lt_of_digit9 h), toDigits9_ofDigits3 h⟩

theorem generateAll_digit9 {c : Config} (h : c ∈ generateAll) : digit9 c := by
  unfold generateAll at h
  rw [List.mem_map] at h
  obtain ⟨i, -, rfl⟩ := h
  exact digit9_toDigits9 i

theorem cmFold_entries (kf : Config → Nat) :
    ∀ (l : List Config) (m : List (Nat × Config)),
      ∀ e ∈ l.foldl (fun m c =>
          if (m.map Prod.fst).contains (kf c) then m
          else m ++ [(kf c, c)]) m,
        e ∈ m ∨ (e.2 ∈ l ∧ e.1 = kf e.2) := by
  intro l
  induction l with
  | nil => intro m e he; exact Or.inl he
  | cons c l ih =>
    intro m e he
    rw [List.foldl_cons] at he
    rcases ih _ e he with h | h
    · split at h
      · exact Or.inl h
      · rcases List.mem_append.1 h with h | h
        · exact Or.inl h
        · rw [List.mem_singleton] at h
          subst h
          exact Or.inr ⟨List.mem_cons_self _ _, rfl⟩
    · exact Or.inr ⟨List.mem_cons_of_mem _ h.1, h.2⟩

theorem cmFold_keys_mono (kf : Config → Nat) :
    ∀ (l : List Config) (m : List (Nat × Config)) (k : Nat), k ∈ m.map Prod.fst →
      k ∈ (l.foldl (fun m c =>
          if (m.map Prod.fst).contains (kf c) then m
          else m ++ [(kf c, c)]) m).map Prod.fst := by
  intro l
  induction l with
  | nil => intro m k hk; exact hk
  | cons c l ih =>
    intro m k hk
    rw [List.foldl_cons]
    refine ih _ k ?_
    split
    · exact hk
    · rw [List.map_append, List.mem_append]
      exact Or.inl hk

theorem cmFold_keys_complete (kf : Config → Nat) :
    ∀ (l : List Config) (m : List (Nat × Config)),
      ∀ c ∈ l, kf c ∈ (l.foldl (fun m c =>
          if (m.map Prod.fst).contains (kf c) then m
          else m ++ [(kf c, c)]) m).map Prod.fst := by
  intro l
  induction l with
  | nil => intro m c hc; exact absurd hc (List.not_mem_nil c)
  | cons c0 l ih =>
    intro m c hc
    rw [List.foldl_cons]
    rcases List.mem_cons.1 hc with rfl | hc
    · refine cmFold_keys_mono kf l _ _ ?_
      split
      case isTrue hcon => exact List.elem_iff.1 hcon
      case isFalse hcon =>
        rw [List.map_append, List.mem_append]
        exact Or.inr (by simp)
    · exact ih _ c hc

theorem cmFold_keys_nodup (kf : Config → Nat) :
    ∀ (l : List Config) (m : List (Nat × Config)), (m.map Prod.fst).Nodup →
      ((l.foldl (fun m c =>
          if (m.map Prod.fst).contains (kf c) then m
          else m ++ [(kf c, c)]) m).map Prod.fst).Nodup := by
  intro l
  induction l with
  | nil => intro m h; exact h
  | cons c l ih =>
    intro m h
    rw [List.foldl_cons]
    refine ih _ ?_
    split
    case isTrue hcon => exact h
    case isFalse hcon =>
      rw [List.map_append]
      rw [List.nodup_append]
      refine ⟨h, by simp, ?_⟩
      intro k hk hk'
      simp only [List.map_cons, List.map_nil, List.mem_singleton] at hk'
      subst hk'
      exact hcon (List.elem_iff.2 hk)

theorem canonicalMapList_entries :
    ∀ e ∈ canonicalMapList, e.2 ∈ generateAll ∧ e.1 = canonicalNat e.2 := by
  intro e he
  rcases cmFold_entries canonicalNat generateAll [] e he with h | h
  · exact absurd h (List.not_mem_nil e)
  · exact h

theorem canonicalMapList_keys_complete {c : Config} (h : c ∈ generateAll) :
    canonicalNat c ∈ canonicalMapList.map Prod.fst :=
  cmFold_keys_complete canonicalNat generateAll [] c h

theorem canonicalMapList_keys_nodup : (canonicalMapList.map Prod.fst).Nodup :=
  cmFold_keys_nodup canonicalNat generateAll [] (by simp)

theorem canonicalMapList_keys_mem {k : Nat} :
    k ∈ canonicalMapList.map Prod.fst ↔ ∃ c ∈ generateAll, canonicalNat c = k := by
  constructor
  · intro hk
    obtain ⟨e, he, hfst⟩ := List.mem_map.1 hk
    have h2 := canonicalMapList_entries e he
    exact ⟨e.2, h2.1, by rw [← h2.2, hfst]⟩
  · rintro ⟨c, hc, rfl⟩
    exact canonicalMapList_keys_complete hc

/-! ### Numeric forms of the symmetry and validity checks -/

set_option maxHeartbeats 2000000 in
theorem digits_extract (a0 a1 a2 a3 a4 a5 a6 a7 a8 : Nat)
    (h0 : a0 < 3) (h1 : a1 < 3) (h2 : a2 < 3) (h3 : a3 < 3) (h4 : a4 < 3)
    (h5 : a5 < 3) (h6 : a6 < 3) (h7 : a7 < 3) (h8 : a8 < 3) :
    ofDigits3 [a0, a1, a2, a3, a4, a5, a6, a7, a8] / 6561 % 3 = a0 ∧
    ofDigits3 [a0, a1, a2, a3, a4, a5, a6, a7, a8] / 2187 % 3 = a1 ∧
    ofDigits3 [a0, a1, a2, a3, a4, a5, a6, a7, a8] / 729 % 3 = a2 ∧
    ofDigits3 [a0, a1, a2, a3, a4, a5, a6, a7, a8] / 243 % 3 = a3 ∧
    ofDigits3 [a0, a1, a2, a3, a4, a5, a6, a7, a8] / 81 % 3 = a4 ∧
    ofDigits3 [a0, a1, a2, a3, a4, a5, a6, a7, a8] / 27 % 3 = a5 ∧
    ofDigits3 [a0, a1, a2, a3, a4, a5, a6, a7, a8] / 9 % 3 = a6 ∧
    ofDigits3 [a0, a1, a2, a3, a4, a5, a6, a7, a8] / 3 % 3 = a7 ∧
    ofDigits3 [a0, a1, a2, a3, a4, a5, a6, a7, a8] % 3 = a8 := by
  rw [ofDigits3_poly]
  refine ⟨?_, ?_, ?_, ?_, ?_, ?_, ?_, ?_, ?_⟩ <;> omega

theorem count_nine (a0 a1 a2 a3 a4 a5 a6 a7 a8 v : Nat) :
    List.count v [a0, a1, a2, a3, a4, a5, a6, a7, a8] =
      (if a0 = v then 1 else 0) + (if a1 = v then 1 else 0) + (if a2 = v then 1 else 0)
      + (if a3 = v then 1 else 0) + (if a4 = v then 1 else 0) + (if a5 = v then 1 else 0)
      + (if a6 = v then 1 else 0) + (if a7 = v then 1 else 0) + (if a8 = v then 1 else 0) := by
  simp only [List.count_cons, List.count_nil, beq_iff_eq]
  omega

theorem hasLine_nine (a0 a1 a2 a3 a4 a5 a6 a7 a8 v : Nat) :
    HasLine [a0, a1, a2, a3, a4, a5, a6, a7, a8] v ↔
      ((a0 = v ∧ a1 = v ∧ a2 = v) ∨ (a3 = v ∧ a4 = v ∧ a5 = v) ∨ (a6 = v ∧ a7 = v ∧ a8 = v) ∨
       (a0 = v ∧ a3 = v ∧ a6 = v) ∨ (a1 = v ∧ a4 = v ∧ a7 = v) ∨ (a2 = v ∧ a5 = v ∧ a8 = v) ∨
       (a0 = v ∧ a4 = v ∧ a8 = v) ∨ (a2 = v ∧ a4 = v ∧ a6 = v)) := by
  unfold HasLine winningLineIdx
  simp [cell, List.getD]

set_option maxHeartbeats 1000000 in
theorem symsN_eq {c : Config} (h : digit9 c) :
    symsN (ofDigits3 c) = (getAllSymmetries c).map ofDigits3 := by
  obtain ⟨a0, a1, a2, a3, a4, a5, a6, a7, a8, rfl⟩ := exists_nine h.1
  obtain ⟨h0, h1, h2, h3, h4, h5, h6, h7, h8⟩ := digit9_explicit h
  obtain ⟨e0, e1, e2, e3, e4, e5, e6, e7, e8⟩ :=
    digits_extract a0 a1 a2 a3 a4 a5 a6 a7 a8 h0 h1 h2 h3 h4 h5 h6 h7 h8
  simp only [symsN, getAllSymmetries, rotate90, rotate180, rotate270, reflectHorizontal,
    reflectVertical, reflectDiagonal, reflectAntiDiagonal, List.map]
  rw [e0, e1, e2, e3, e4, e5, e6, e7, e8]
  simp only [ofDigits3_poly]

theorem validShape (c1 c2 : Nat) (x o : Bool) :
    (!(c1 < c2 || c2 + 1 < c1) && !(x && o) && (!x || c2 < c1) && (!o || c1 == c2)) = true ↔
      ((c1 = c2 ∨ c1 = c2 + 1) ∧ ¬(x = true ∧ o = true) ∧ (x = true → c2 < c1) ∧
        (o = true → c1 = c2)) := by
  cases x <;> cases o <;> simp <;> try omega

theorem lineBool_iff (a0 a1 a2 a3 a4 a5 a6 a7 a8 v : Nat) :
    ((a0 = v && a1 = v && a2 = v) || (a3 = v && a4 = v && a5 = v) ||
     (a6 = v && a7 = v && a8 = v) || (a0 = v && a3 = v && a6 = v) ||
     (a1 = v && a4 = v && a7 = v) || (a2 = v && a5 = v && a8 = v) ||
     (a0 = v && a4 = v && a8 = v) || (a2 = v && a4 = v && a6 = v)) = true ↔
      HasLine [a0, a1, a2, a3, a4, a5, a6, a7, a8] v := by
  rw [hasLine_nine]
  simp only [Bool.or_eq_true, Bool.and_eq_true, decide_eq_true_eq, or_assoc, and_assoc]

set_option maxHeartbeats 2000000 in
theorem validFPXN_eq {c : Config} (h : digit9 c) :
    validFPXN (ofDigits3 c) = isValidFirstPlayerX c := by
  obtain ⟨a0, a1, a2, a3, a4, a5, a6, a7, a8, rfl⟩ := exists_nine h.1
  obtain ⟨h0, h1, h2, h3, h4, h5, h6, h7, h8⟩ := digit9_explicit h
  obtain ⟨e0, e1, e2, e3, e4, e5, e6, e7, e8⟩ :=
    digits_extract a0 a1 a2 a3 a4 a5 a6 a7 a8 h0 h1 h2 h3 h4 h5 h6 h7 h8
  rw [Bool.eq_iff_iff, isValidFirstPlayerX_iff]
  simp only [validFPXN]
  rw [e0, e1, e2, e3, e4, e5, e6, e7, e8]
  rw [validShape]
  rw [lineBool_iff a0 a1 a2 a3 a4 a5 a6 a7 a8 1, lineBool_iff a0 a1 a2 a3 a4 a5 a6 a7 a8 2]
  rw [← count_nine a0 a1 a2 a3 a4 a5 a6 a7 a8 1, ← count_nine a0 a1 a2 a3 a4 a5 a6 a7 a8 2]

/-! ### Counting the canonical valid classes -/

theorem countP_congr_mem {α : Type} {p q : α → Bool} :
    ∀ (l : List α), (∀ a ∈ l, p a = q a) → l.countP p = l.countP q
  | [], _ => rfl
  | a :: t, h => by
    rw [List.countP_cons, List.countP_cons, h a (List.mem_cons_self a t),
      countP_congr_mem t (fun b hb => h b (List.mem_cons_of_mem a hb))]

theorem canonicalNat_toDigits9_iff {n : Nat} (h : n < 19683) :
    canonicalNat (toDigits9 n) = n ↔ (symsN n).all (n ≤ ·) = true := by
  have hd : digit9 (toDigits9 n) := digit9_toDigits9 n
  have he : ofDigits3 (toDigits9 n) = n := ofDigits3_toDigits9 h
  have hs : symsN n = (getAllSymmetries (toDigits9 n)).map ofDigits3 := by
    nth_rewrite 1 [← he]
    exact symsN_eq hd
  rw [List.all_eq_true]
  constructor
  · intro hc m hm
    rw [hs] at hm
    obtain ⟨s, hsmem, rfl⟩ := List.mem_map.1 hm
    have := canonicalNat_le hsmem
    simp only [decide_eq_true_eq]
    omega
  · intro hall
    have h1 : canonicalNat (toDigits9 n) ≤ n := by
      have := canonicalNat_le (self_mem_getAllSymmetries (toDigits9 n))
      omega
    obtain ⟨s, hsm, hse⟩ := canonicalNat_attained (toDigits9 n)
    have h2 : n ≤ ofDigits3 s := by
      have := hall (ofDigits3 s) (by rw [hs]; exact List.mem_map_of_mem _ hsm)
      simpa using this
    omega

theorem key_iff {n : Nat} (h : n < 19683) :
    (∃ c ∈ generateAll, canonicalNat c = n) ↔ canonicalNat (toDigits9 n) = n := by
  constructor
  · rintro ⟨c, hc, rfl⟩
    have hd : digit9 c := generateAll_digit9 hc
    obtain ⟨s, hsm, hse⟩ := canonicalNat_attained c
    have hds : digit9 s := getAllSymmetries_digit9 hd s hsm
    have hts : toDigits9 (canonicalNat c) = s := by rw [hse, toDigits9_ofDigits3 hds]
    rw [hts, canonical_invariant hd.1 s hsm]
  · intro hc
    exact ⟨toDigits9 n, mem_generateAll (digit9_toDigits9 n), hc⟩

theorem validAny_iff {n : Nat} (h : n < 19683) (hk : canonicalNat (toDigits9 n) = n) :
    (symsN n).any validFPXN = true ↔
      getValidStatesFirstPlayerX.any (fun s => canonicalNat s == n) = true := by
  have hd : digit9 (toDigits9 n) := digit9_toDigits9 n
  have he : ofDigits3 (toDigits9 n) = n := ofDigits3_toDigits9 h
  have hs : symsN n = (getAllSymmetries (toDigits9 n)).map ofDigits3 := by
    nth_rewrite 1 [← he]
    exact symsN_eq hd
  rw [List.any_eq_true, List.any_eq_true]
  constructor
  · rintro ⟨m, hm, hvm⟩
    rw [hs] at hm
    obtain ⟨s, hsm, rfl⟩ := List.mem_map.1 hm
    have hds : digit9 s := getAllSymmetries_digit9 hd s hsm
    rw [validFPXN_eq hds] at hvm
    refine ⟨s, ?_, ?_⟩
    · exact List.mem_filter.2 ⟨mem_generateAll hds, hvm⟩
    · rw [beq_iff_eq, canonical_invariant hd.1 s hsm, hk]
  · rintro ⟨s, hsf, hcs⟩
    rw [beq_iff_eq] at hcs
    have hsg : s ∈ generateAll := (List.mem_filter.1 hsf).1
    have hv : isValidFirstPlayerX s = true := (List.mem_filter.1 hsf).2
    have hds : digit9 s := generateAll_digit9 hsg
    obtain ⟨t, htm, hte⟩ := canonicalNat_attained s
    have hdt : digit9 t := getAllSymmetries_digit9 hds t htm
    have hts : toDigits9 n = t := by rw [← hcs, hte, toDigits9_ofDigits3 hdt]
    have hst : s ∈ getAllSymmetries t := mem_getAllSymmetries_symm hds.1 htm
    refine ⟨ofDigits3 s, ?_, ?_⟩
    · rw [hs, hts]
      exact List.mem_map_of_mem _ hst
    · rw [validFPXN_eq hds]; exact hv

theorem isRepValidN_iff {n : Nat} (h : n < 19683) :
    isRepValidN n = true ↔
      ((∃ c ∈ generateAll, canonicalNat c = n) ∧
        getValidStatesFirstPlayerX.any (fun s => canonicalNat s == n) = true) := by
  unfold isRepValidN
  rw [Bool.and_eq_true]
  constructor
  · rintro ⟨ha, hb⟩
    have hk : canonicalNat (toDigits9 n) = n := (canonicalNat_toDigits9_iff h).2 ha
    exact ⟨(key_iff h).2 hk, (validAny_iff h hk).1 hb⟩
  · rintro ⟨ha, hb⟩
    have hk := (key_iff h).1 ha
    exact ⟨(canonicalNat_toDigits9_iff h).1 hk, (validAny_iff h hk).2 hb⟩

theorem length_as_countP :
    getCanonicalValidStatesFirstPlayerX.length =
      (canonicalMapList.map Prod.fst).countP
        (fun k => getValidStatesFirstPlayerX.any (fun s => canonicalNat s == k)) := by
  unfold getCanonicalValidStatesFirstPlayerX
  rw [← List.countP_eq_length_filter, List.countP_map, List.countP_map]
  refine countP_congr_mem _ ?_
  intro e he
  have h2 := canonicalMapList_entries e he
  simp only [Function.comp_apply]
  rw [h2.2]

theorem keys_perm_filter :
    (canonicalMapList.map Prod.fst).Perm
      ((List.range 19683).filter (fun m => canonicalNat (toDigits9 m) == m)) := by
  rw [List.perm_ext_iff_of_nodup canonicalMapList_keys_nodup
    (List.Nodup.filter _ (List.nodup_range _))]
  intro k
  rw [canonicalMapList_keys_mem, List.mem_filter, List.mem_range, beq_iff_eq]
  constructor
  · intro hex
    have hlt : k < 19683 := by
      obtain ⟨c, hc, rfl⟩ := hex
      have h1 := canonicalNat_le (self_mem_getAllSymmetries c)
      have h2 := ofDigits3_lt_of_digit9 (generateAll_digit9 hc)
      omega
    exact ⟨hlt, (key_iff hlt).1 hex⟩
  · rintro ⟨hlt, hk⟩
    exact (key_iff hlt).2 hk

theorem countP_keys_eq_range :
    (canonicalMapList.map Prod.fst).countP
        (fun k => getValidStatesFirstPlayerX.any (fun s => canonicalNat s == k)) =
      (List.range 19683).countP isRepValidN := by
  rw [keys_perm_filter.countP_eq, List.countP_filter]
  refine countP_congr_mem _ ?_
  intro m hm
  rw [List.mem_range] at hm
  rw [Bool.eq_iff_iff, Bool.and_eq_true, beq_iff_eq, isRepValidN_iff hm]
  constructor
  · rintro ⟨hany, hkey⟩
    exact ⟨(key_iff hm).2 hkey, hany⟩
  · rintro ⟨hex, hany⟩
    exact ⟨hany, (key_iff hm).1 hex⟩

theorem countRange'_eq_countP (f : Nat → Bool) :
    ∀ (n lo : Nat), countRange' f lo n = (List.range' lo n).countP f
  | 0, _ => rfl
  | n + 1, lo => by
    rw [List.range'_succ, List.countP_cons]
    show (if f lo then 1 else 0) + countRange' f (lo + 1) n = _
    rw [countRange'_eq_countP f n (lo + 1)]
    cases h : f lo <;> simp [h] <;> omega

theorem countRange'_split (f : Nat → Bool) :
    ∀ (m lo n : Nat),
      countRange' f lo (m + n) = countRange' f lo m + countRange' f (lo + m) n
  | 0, lo, n => by simp [countRange']
  | m + 1, lo, n => by
    have h : m + 1 + n = (m + n) + 1 := by omega
    rw [h]
    show (if f lo then 1 else 0) + countRange' f (lo + 1) (m + n) = _
    rw [countRange'_split f m (lo + 1) n]
    have h2 : lo + 1 + m = lo + (m + 1) := by omega
    rw [h2]
    show _ = (if f lo then 1 else 0) + countRange' f (lo + 1) m + countRange' f (lo + (m + 1)) n
    rw [Nat.add_assoc]

theorem count_range_countRange' :
    (List.range 19683).countP isRepValidN = countRange' isRepValidN 0 19683 := by
  rw [List.range_eq_range', countRange'_eq_countP]

set_option maxRecDepth 9000 in
set_option maxHeartbeats 12000000 in
theorem chunkVal0 : countRange' isRepValidN 0 1000 = 188 := rfl

set_option maxRecDepth 9000 in
set_option maxHeartbeats 12000000 in
theorem chunkVal1 : countRange' isRepValidN 1000 1000 = 231 := rfl
set_option maxRecDepth 9000 in
set_option maxHeartbeats 12000000 in
theorem chunkVal2 : countRange' isRepValidN 2000 1000 = 67 := rfl
set_option maxRecDepth 9000 in
set_option maxHeartbeats 12000000 in
theorem chunkVal3 : countRange' isRepValidN 3000 1000 = 90 := rfl
set_option maxRecDepth 9000 in
set_option maxHeartbeats 12000000 in
theorem chunkVal4 : countRange' isRepValidN 4000 1000 = 41 := rfl
set_option maxRecDepth 9000 in
set_option maxHeartbeats 12000000 in
theorem chunkVal5 : countRange' isRepValidN 5000 1000 = 19 := rfl
set_option maxRecDepth 9000 in
set_option maxHeartbeats 12000000 in
theorem chunkVal6 : countRange' isRepValidN 6000 1000 = 1 := rfl
set_option maxRecDepth 9000 in
set_option maxHeartbeats 12000000 in
theorem chunkVal7 : countRange' isRepValidN 7000 1000 = 42 := rfl
set_option maxRecDepth 9000 in
set_option maxHeartbeats 12000000 in
theorem chunkVal8 : countRange' isRepValidN 8000 1000 = 51 := rfl
set_option maxRecDepth 9000 in
set_option maxHeartbeats 12000000 in
theorem chunkVal9 : countRange' isRepValidN 9000 1000 = 4 := rfl
set_option maxRecDepth 9000 in
set_option maxHeartbeats 12000000 in
theorem chunkVal10 : countRange' isRepValidN 10000 1000 = 27 := rfl
set_option maxRecDepth 9000 in
set_option maxHeartbeats 12000000 in
theorem chunkVal11 : countRange' isRepValidN 11000 1000 = 0 := rfl
set_option maxRecDepth 9000 in
set_option maxHeartbeats 12000000 in
theorem chunkVal12 : countRange' isRepValidN 12000 1000 = 2 := rfl
set_option maxRecDepth 9000 in
set_option maxHeartbeats 12000000 in
theorem chunkVal13 : countRange' isRepValidN 13000 1000 = 0 := rfl
set_option maxRecDepth 9000 in
set_option maxHeartbeats 12000000 in
theorem chunkVal14 : countRange' isRepValidN 14000 1000 = 0 := rfl
set_option maxRecDepth 9000 in
set_option maxHeartbeats 12000000 in
theorem chunkVal15 : countRange' isRepValidN 15000 1000 = 0 := rfl
set_option maxRecDepth 9000 in
set_option maxHeartbeats 12000000 in
theorem chunkVal16 : countRange' isRepValidN 16000 1000 = 0 := rfl
set_option maxRecDepth 9000 in
set_option maxHeartbeats 12000000 in
theorem chunkVal17 : countRange' isRepValidN 17000 1000 = 2 := rfl
set_option maxRecDepth 9000 in
set_option maxHeartbeats 12000000 in
theorem chunkVal18 : countRange' isRepValidN 18000 1000 = 0 := rfl
set_option maxRecDepth 9000 in
set_option maxHeartbeats 12000000 in
theorem chunkVal19 : countRange' isRepValidN 19000 683 = 0 := rfl

theorem countRange'_total : countRange' isRepValidN 0 19683 = 765 := by
  rw [(by norm_num : (19683 : Nat) = 1000 + 18683)]
  rw [countRange'_split isRepValidN 1000 0 18683]
  rw [(by norm_num : (0 : Nat) + 1000 = 1000)]
  rw [chunkVal0]
  rw [(by norm_num : (18683 : Nat) = 1000 + 17683)]
  rw [countRange'_split isRepValidN 1000 1000 17683]
  rw [(by norm_num : (1000 : Nat) + 1000 = 2000)]
  rw [chunkVal1]
  rw [(by norm_num : (17683 : Nat) = 1000 + 16683)]
  rw [countRange'_split isRepValidN 1000 2000 16683]
  rw [(by norm_num : (2000 : Nat) + 1000 = 3000)]
  rw [chunkVal2]
  rw [(by norm_num : (16683 : Nat) = 1000 + 15683)]
  rw [countRange'_split isRepValidN 1000 3000 15683]
  rw [(by norm_num : (3000 : Nat) + 1000 = 4000)]
  rw [chunkVal3]
  rw [(by norm_num : (15683 : Nat) = 1000 + 14683)]
  rw [countRange'_split isRepValidN 1000 4000 14683]
  rw [(by norm_num : (4000 : Nat) + 1000 = 5000)]
  rw [chunkVal4]
  rw [(by norm_num : (14683 : Nat) = 1000 + 13683)]
  rw [countRange'_split isRepValidN 1000 5000 13683]
  rw [(by norm_num : (5000 : Nat) + 1000 = 6000)]
  rw [chunkVal5]
  rw [(by norm_num : (13683 : Nat) = 1000 + 12683)]
  rw [countRange'_split isRepValidN 1000 6000 12683]
  rw [(by norm_num : (6000 : Nat) + 1000 = 7000)]
  rw [chunkVal6]
  rw [(by norm_num : (12683 : Nat) = 1000 + 11683)]
  rw [countRange'_split isRepValidN 1000 7000 11683]
  rw [(by norm_num : (7000 : Nat) + 1000 = 8000)]
  rw [chunkVal7]
  rw [(by norm_num : (11683 : Nat) = 1000 + 10683)]
  rw [countRange'_split isRepValidN 1000 8000 10683]
  rw [(by norm_num : (8000 : Nat) + 1000 = 9000)]
  rw [chunkVal8]
  rw [(by norm_num : (10683 : Nat) = 1000 + 9683)]
  rw [countRange'_split isRepValidN 1000 9000 9683]
  rw [(by norm_num : (9000 : Nat) + 1000 = 10000)]
  rw [chunkVal9]
  rw [(by norm_num : (9683 : Nat) = 1000 + 8683)]
  rw [countRange'_split isRepValidN 1000 10000 8683]
  rw [(by norm_num : (10000 : Nat) + 1000 = 11000)]
  rw [chunkVal10]
  rw [(by norm_num : (8683 : Nat) = 1000 + 7683)]
  rw [countRange'_split isRepValidN 1000 11000 7683]
  rw [(by norm_num : (11000 : Nat) + 1000 = 12000)]
  rw [chunkVal11]
  rw [(by norm_num : (7683 : Nat) = 1000 + 6683)]
  rw [countRange'_split isRepValidN 1000 12000 6683]
  rw [(by norm_num : (12000 : Nat) + 1000 = 13000)]
  rw [chunkVal12]
  rw [(by norm_num : (6683 : Nat) = 1000 + 5683)]
  rw [countRange'_split isRepValidN 1000 13000 5683]
  rw [(by norm_num : (13000 : Nat) + 1000 = 14000)]
  rw [chunkVal13]
  rw [(by norm_num : (5683 : Nat) = 1000 + 4683)]
  rw [countRange'_split isRepValidN 1000 14000 4683]
  rw [(by norm_num : (14000 : Nat) + 1000 = 15000)]
  rw [chunkVal14]
  rw [(by norm_num : (4683 : Nat) = 1000 + 3683)]
  rw [countRange'_split isRepValidN 1000 15000 3683]
  rw [(by norm_num : (15000 : Nat) + 1000 = 16000)]
  rw [chunkVal15]
  rw [(by norm_num : (3683 : Nat) = 1000 + 2683)]
  rw [countRange'_split isRepValidN 1000 16000 2683]
  rw [(by norm_num : (16000 : Nat) + 1000 = 17000)]
  rw [chunkVal16]
  rw [(by norm_num : (2683 : Nat) = 1000 + 1683)]
  rw [countRange'_split isRepValidN 1000 17000 1683]
  rw [(by norm_num : (17000 : Nat) + 1000 = 18000)]
  rw [chunkVal17]
  rw [(by norm_num : (1683 : Nat) = 1000 + 683)]
  rw [countRange'_split isRepValidN 1000 18000 683]
  rw [(by norm_num : (18000 : Nat) + 1000 = 19000)]
  rw [chunkVal18]
  rw [chunkVal19]
theorem canonicalValidClassCount : getCanonicalValidStatesFirstPlayerX.length = 765 := by
  rw [length_as_countP, countP_keys_eq_range, count_range_countRange', countRange'_total]

/-- C2 (corrected): after generating all 19683 configurations, the number of
canonical equivalence classes containing at least one strictly valid
(first-player-X) configuration — the length of the sequence returned by
`getCanonicalValidStatesFirstPlayerX` — is 765, not the 756 stated by the
specification. -/
theorem c2_canonical_class_count : getCanonicalValidStatesFirstPlayerX.length = 765 :=
  canonicalValidClassCount

/-- Counterexample to C2 as stated: the sequence of canonical valid classes
does not have length 756. -/
theorem c2_counterexample : getCanonicalValidStatesFirstPlayerX.length ≠ 756 := by
  rw [canonicalValidClassCount]
  omega

/-! ### Association-list facts for the graph and the memo cache -/

theorem lookup_isSome_iff {β : Type} {l : List (Nat × β)} {k : Nat} :
    (l.lookup k).isSome = true ↔ k ∈ l.map Prod.fst := by
  induction l with
  | nil => simp [List.lookup]
  | cons e t ih =>
    obtain ⟨a, b⟩ := e
    rw [List.lookup_cons, List.map_cons, List.mem_cons]
    cases hak : k == a
    · rw [ih]
      constructor
      · exact Or.inr
      · rintro (rfl | h)
        · simp at hak
        · exact h
    · simp only [Option.isSome_some, true_iff]
      exact Or.inl (beq_iff_eq.1 hak)

theorem lookup_eq_some_mem {β : Type} {l : List (Nat × β)} {k : Nat} {v : β}
    (h : l.lookup k = some v) : (k, v) ∈ l := by
  induction l with
  | nil => simp [List.lookup] at h
  | cons e t ih =>
    obtain ⟨a, b⟩ := e
    rw [List.lookup_cons] at h
    cases hak : k == a
    · rw [hak] at h
      exact List.mem_cons_of_mem _ (ih h)
    · rw [hak] at h
      obtain rfl := Option.some.inj h
      obtain rfl := beq_iff_eq.1 hak
      exact List.mem_cons_self _ _

theorem lookup_append_left {β : Type} {l l' : List (Nat × β)} {k : Nat}
    (h : (l.lookup k).isSome = true) : (l ++ l').lookup k = l.lookup k := by
  induction l with
  | nil => simp [List.lookup] at h
  | cons e t ih =>
    obtain ⟨a, b⟩ := e
    rw [List.cons_append, List.lookup_cons, List.lookup_cons]
    cases hak : k == a
    · rw [List.lookup_cons, hak] at h
      exact ih h
    · rfl

theorem lookup_append_right {β : Type} {l l' : List (Nat × β)} {k : Nat}
    (h : l.lookup k = none) : (l ++ l').lookup k = l'.lookup k := by
  induction l with
  | nil => rfl
  | cons e t ih =>
    obtain ⟨a, b⟩ := e
    rw [List.lookup_cons] at h
    rw [List.cons_append, List.lookup_cons]
    cases hak : k == a
    · rw [hak] at h
      exact ih h
    · rw [hak] at h
      exact absurd h (by simp)

theorem updateNode_map_fst (g : Graph) (k : Nat) (nd : GraphNode) :
    (updateNode g k nd).map Prod.fst = g.map Prod.fst := by
  induction g with
  | nil => rfl
  | cons e t ih =>
    rw [updateNode]
    split
    case isTrue h => rw [List.map_cons, List.map_cons, h]
    case isFalse h => rw [List.map_cons, List.map_cons, ih]

theorem mem_updateNode {g : Graph} {k : Nat} {nd : GraphNode} {e : Nat × GraphNode}
    (he : e ∈ updateNode g k nd) : e ∈ g ∨ (e.1 = k ∧ e.2 = nd) := by
  induction g with
  | nil => rw [updateNode] at he; exact Or.inl he
  | cons e0 t ih =>
    rw [updateNode] at he
    split at he
    case isTrue h =>
      rcases List.mem_cons.1 he with rfl | hmem
      · exact Or.inr ⟨rfl, rfl⟩
      · exact Or.inl (List.mem_cons_of_mem _ hmem)
    case isFalse h =>
      rcases List.mem_cons.1 he with rfl | hmem
      · exact Or.inl (List.mem_cons_self _ _)
      · rcases ih hmem with h1 | h2
        · exact Or.inl (List.mem_cons_of_mem _ h1)
        · exact Or.inr h2

theorem updateNode_length (g : Graph) (k : Nat) (nd : GraphNode) :
    (updateNode g k nd).length = g.length := by
  have := updateNode_map_fst g k nd
  have h1 : (updateNode g k nd).length = ((updateNode g k nd).map Prod.fst).length :=
    (List.length_map _ _).symm
  rw [h1, this, List.length_map]

theorem updateNode_lookup_isSome {g : Graph} {k k' : Nat} {nd : GraphNode} :
    ((updateNode g k nd).lookup k').isSome = (g.lookup k').isSome := by
  rw [Bool.eq_iff_iff, lookup_isSome_iff, lookup_isSome_iff, updateNode_map_fst]

/-! ### The inner move loop of buildTree -/

theorem insertChild_lookup_mono {g : Graph} {k : Nat} (sid : Nat) (c2 : Config)
    (ck cd : Nat) (h : (g.lookup k).isSome = true) :
    ((insertChild g sid c2 ck cd).lookup k).isSome = true := by
  rw [insertChild]
  split
  · exact h
  · rw [lookup_append_left h]
    exact h

theorem pushChildKey_lookup_isSome (g : Graph) (ck sid k : Nat) :
    ((pushChildKey g ck sid).lookup k).isSome = (g.lookup k).isSome := by
  rw [pushChildKey]
  split
  · exact updateNode_lookup_isSome
  · rfl

theorem insertChild_lookup_self (g : Graph) (sid : Nat) (c2 : Config) (ck cd : Nat) :
    ((insertChild g sid c2 ck cd).lookup sid).isSome = true := by
  rw [insertChild]
  split
  case isTrue h => exact h
  case isFalse h =>
    rw [lookup_append_right (Option.not_isSome_iff_eq_none.1 (by simpa using h))]
    rw [List.lookup_cons]
    simp

theorem mem_insertChild {g : Graph} {sid : Nat} {c2 : Config} {ck cd : Nat}
    {e : Nat × GraphNode} (he : e ∈ insertChild g sid c2 ck cd) :
    e ∈ g ∨ ((g.lookup sid).isSome = false ∧ e = (sid, ⟨c2, some ck, [], cd + 1⟩)) := by
  rw [insertChild] at he
  split at he
  case isTrue => exact Or.inl he
  case isFalse h =>
    rcases List.mem_append.1 he with h1 | h1
    · exact Or.inl h1
    · exact Or.inr ⟨Bool.eq_false_iff.2 h, List.mem_singleton.1 h1⟩

theorem mem_pushChildKey {g : Graph} {ck sid : Nat} {e : Nat × GraphNode}
    (he : e ∈ pushChildKey g ck sid) :
    e ∈ g ∨ ∃ nd, (ck, nd) ∈ g ∧
      e = (ck, ⟨nd.stateC, nd.parent, nd.children ++ [sid], nd.depth⟩) := by
  rw [pushChildKey] at he
  split at he
  case h_1 nd hnd =>
    rcases mem_updateNode he with h | h
    · exact Or.inl h
    · exact Or.inr ⟨nd, lookup_eq_some_mem hnd,
        Prod.ext_iff.2 ⟨h.1, h.2⟩⟩
  case h_2 => exact Or.inl he

theorem insertChild_map_fst_nodup {g : Graph} {sid : Nat} {c2 : Config} {ck cd : Nat}
    (h : (g.map Prod.fst).Nodup) :
    ((insertChild g sid c2 ck cd).map Prod.fst).Nodup := by
  rw [insertChild]
  split
  case isTrue => exact h
  case isFalse hns =>
    rw [List.map_append]
    rw [List.nodup_append]
    refine ⟨h, by simp, ?_⟩
    intro k hk hk'
    simp only [List.map_cons, List.map_nil, List.mem_singleton] at hk'
    subst hk'
    exact hns (lookup_isSome_iff.2 hk)

theorem pushChildKey_map_fst (g : Graph) (ck sid : Nat) :
    (pushChildKey g ck sid).map Prod.fst = g.map Prod.fst := by
  rw [pushChildKey]
  split
  · exact updateNode_map_fst _ _ _
  · rfl

theorem insertChild_length_q {g : Graph} {sid : Nat} {c2 : Config} {ck cd : Nat}
    {qAcc : List Config} {newState : Config} :
    (insertChild g sid c2 ck cd).length + qAcc.length =
      g.length + (if (g.lookup sid).isSome then qAcc else qAcc ++ [newState]).length := by
  rw [insertChild]
  split
  case isTrue h => rfl
  case isFalse h =>
    rw [List.length_append, List.length_append]
    simp
    omega

theorem stateKey_lt {u : Bool} {c : Config} (h : digit9 c) : stateKey u c < 19683 := by
  rw [stateKey]
  split
  · have h1 := canonicalNat_le (self_mem_getAllSymmetries c)
    have h2 := ofDigits3_lt_of_digit9 h
    omega
  · exact ofDigits3_lt_of_digit9 h

theorem processMoves_lookup_mono (u : Bool) (s : Config) (ck cd : Nat) :
    ∀ (ms : List Nat) (g : Graph) (qAcc : List Config) (k : Nat),
      (g.lookup k).isSome = true →
      ((processMoves u s ck cd ms g qAcc).1.lookup k).isSome = true
  | [], g, qAcc, k => fun h => h
  | m :: ms, g, qAcc, k => fun h => by
    rw [processMoves]
    cases hm : makeMove s m with
    | none => exact processMoves_lookup_mono u s ck cd ms g qAcc k h
    | some c2 =>
      refine processMoves_lookup_mono u s ck cd ms _ _ k ?_
      rw [pushChildKey_lookup_isSome]
      exact insertChild_lookup_mono _ _ _ _ h

theorem processMoves_queue_mono (u : Bool) (s : Config) (ck cd : Nat) :
    ∀ (ms : List Nat) (g : Graph) (qAcc : List Config) (c : Config),
      c ∈ qAcc → c ∈ (processMoves u s ck cd ms g qAcc).2
  | [], g, qAcc, c => fun h => h
  | m :: ms, g, qAcc, c => fun h => by
    rw [processMoves]
    cases hm : makeMove s m with
    | none => exact processMoves_queue_mono u s ck cd ms g qAcc c h
    | some c2 =>
      refine processMoves_queue_mono u s ck cd ms _ _ c ?_
      split
      · exact h
      · exact List.mem_append_left _ h

theorem stateKey_false (c : Config) : stateKey false c = ofDigits3 c := rfl

theorem pushChildKey_length (g : Graph) (ck sid : Nat) :
    (pushChildKey g ck sid).length = g.length := by
  rw [pushChildKey]
  split
  · exact updateNode_length _ _ _
  · rfl

theorem processMoves_fuel (u : Bool) (s : Config) (ck cd : Nat) (hd9 : digit9 s) :
    ∀ (ms : List Nat) (g : Graph) (qAcc : List Config),
      (∀ k ∈ g.map Prod.fst, k < 19683) →
      (g.map Prod.fst).Nodup →
      (∀ c ∈ qAcc, digit9 c) →
      (∀ k ∈ (processMoves u s ck cd ms g qAcc).1.map Prod.fst, k < 19683) ∧
      ((processMoves u s ck cd ms g qAcc).1.map Prod.fst).Nodup ∧
      (∀ c ∈ (processMoves u s ck cd ms g qAcc).2, digit9 c) ∧
      (processMoves u s ck cd ms g qAcc).1.length + qAcc.length =
        g.length + (processMoves u s ck cd ms g qAcc).2.length
  | [], g, qAcc => fun hk hn hq => ⟨hk, hn, hq, rfl⟩
  | m :: ms, g, qAcc => fun hk hn hq => by
    rw [processMoves]
    cases hm : makeMove s m with
    | none => exact processMoves_fuel u s ck cd hd9 ms g qAcc hk hn hq
    | some c2 =>
      have hd2 : digit9 c2 := makeMove_digit9 hd9 hm
      have hkeys : ∀ k ∈ (pushChildKey (insertChild g (stateKey u c2) c2 ck cd) ck
          (stateKey u c2)).map Prod.fst, k < 19683 := by
        rw [pushChildKey_map_fst]
        intro k hkmem
        rw [insertChild] at hkmem
        split at hkmem
        · exact hk k hkmem
        · rw [List.map_append] at hkmem
          rcases List.mem_append.1 hkmem with h | h
          · exact hk k h
          · simp only [List.map_cons, List.map_nil, List.mem_singleton] at h
            subst h
            exact stateKey_lt hd2
      have hnd : ((pushChildKey (insertChild g (stateKey u c2) c2 ck cd) ck
          (stateKey u c2)).map Prod.fst).Nodup := by
        rw [pushChildKey_map_fst]
        exact insertChild_map_fst_nodup hn
      have hq2 : ∀ c ∈ (if (g.lookup (stateKey u c2)).isSome then qAcc
          else qAcc ++ [c2]), digit9 c := by
        split
        · exact hq
        · intro c hc
          rcases List.mem_append.1 hc with h | h
          · exact hq c h
          · rw [List.mem_singleton.1 h]; exact hd2
      have hlen := @insertChild_length_q g (stateKey u c2) c2 ck cd qAcc c2
      have hpl := pushChildKey_length (insertChild g (stateKey u c2) c2 ck cd) ck
        (stateKey u c2)
      have ih := processMoves_fuel u s ck cd hd9 ms
        (pushChildKey (insertChild g (stateKey u c2) c2 ck cd) ck (stateKey u c2))
        (if (g.lookup (stateKey u c2)).isSome then qAcc else qAcc ++ [c2])
        hkeys hnd hq2
      refine ⟨ih.1, ih.2.1, ih.2.2.1, ?_⟩
      have hlen2 := ih.2.2.2
      show (processMoves u s ck cd ms
          (pushChildKey (insertChild g (stateKey u c2) c2 ck cd) ck (stateKey u c2))
          (if (g.lookup (stateKey u c2)).isSome then qAcc else qAcc ++ [c2])).1.length
          + qAcc.length =
        g.length + (processMoves u s ck cd ms
          (pushChildKey (insertChild g (stateKey u c2) c2 ck cd) ck (stateKey u c2))
          (if (g.lookup (stateKey u c2)).isSome then qAcc else qAcc ++ [c2])).2.length
      omega

theorem processMoves_inv (s : Config) (ck cd : Nat)
    (hck : ck = ofDigits3 s) (hd9 : digit9 s) (hrs : Reachable s)
    (hsnt : isTerminal s = false) :
    ∀ (ms : List Nat) (g : Graph) (qAcc : List Config),
      (∀ e ∈ g, entryOK e) →
      (∀ c ∈ qAcc, digit9 c ∧ Reachable c) →
      (∀ e ∈ (processMoves false s ck cd ms g qAcc).1, entryOK e) ∧
      (∀ c ∈ (processMoves false s ck cd ms g qAcc).2, digit9 c ∧ Reachable c) ∧
      (∀ e ∈ (processMoves false s ck cd ms g qAcc).1,
        e ∈ g ∨ e.1 = ck ∨ e.2.stateC ∈ (processMoves false s ck cd ms g qAcc).2) ∧
      (∀ m ∈ ms, ∀ c', makeMove s m = some c' →
        ((processMoves false s ck cd ms g qAcc).1.lookup (ofDigits3 c')).isSome = true) ∧
      ((∀ cq ∈ qAcc, (g.lookup (ofDigits3 cq)).isSome = true) →
        ∀ c ∈ (processMoves false s ck cd ms g qAcc).2,
          ((processMoves false s ck cd ms g qAcc).1.lookup (ofDigits3 c)).isSome = true)
  | [], g, qAcc => fun hg hq => by
    refine ⟨hg, hq, fun e he => Or.inl he, ?_, fun hqk => hqk⟩
    intro m hm
    exact absurd hm (List.not_mem_nil m)
  | m :: ms, g, qAcc => fun hg hq => by
    rw [processMoves]
    cases hm : makeMove s m with
    | none =>
      have ih := processMoves_inv s ck cd hck hd9 hrs hsnt ms g qAcc hg hq
      refine ⟨ih.1, ih.2.1, ih.2.2.1, ?_, ih.2.2.2.2⟩
      intro m' hm' c' hc'
      rcases List.mem_cons.1 hm' with rfl | hmem
      · rw [hm] at hc'
        exact absurd hc' (by simp)
      · exact ih.2.2.2.1 m' hmem c' hc'
    | some c2 =>
      have hd2 : digit9 c2 := makeMove_digit9 hd9 hm
      have hr2 : Reachable c2 := Reachable.step hrs hm
      have hkey2 : stateKey false c2 = ofDigits3 c2 := stateKey_false c2
      -- the updated graph and queue of this iteration
      have hA1 : ∀ e ∈ insertChild g (stateKey false c2) c2 ck cd, entryOK e := by
        intro e he
        rcases mem_insertChild he with h | ⟨-, rfl⟩
        · exact hg e h
        · refine ⟨hd2, by rw [hkey2], hr2, fun _ => rfl⟩
      have hA2 : ∀ e ∈ pushChildKey (insertChild g (stateKey false c2) c2 ck cd) ck
          (stateKey false c2), entryOK e := by
        intro e he
        rcases mem_pushChildKey he with h | ⟨nd, hnd, rfl⟩
        · exact hA1 e h
        · have hok := hA1 (ck, nd) hnd
          refine ⟨hok.1, hok.2.1, hok.2.2.1, ?_⟩
          intro hterm
          have hds : nd.stateC = s := by
            refine ofDigits3_injOn hok.1 hd9 ?_
            rw [← hok.2.1, hck]
          rw [hds] at hterm
          rw [hterm] at hsnt
          exact absurd hsnt (by simp)
      have hB2 : ∀ c ∈ (if (g.lookup (stateKey false c2)).isSome then qAcc
          else qAcc ++ [c2]), digit9 c ∧ Reachable c := by
        split
        · exact hq
        · intro c hc
          rcases List.mem_append.1 hc with h | h
          · exact hq c h
          · rw [List.mem_singleton.1 h]; exact ⟨hd2, hr2⟩
      have ih := processMoves_inv s ck cd hck hd9 hrs hsnt ms
        (pushChildKey (insertChild g (stateKey false c2) c2 ck cd) ck (stateKey false c2))
        (if (g.lookup (stateKey false c2)).isSome then qAcc else qAcc ++ [c2])
        hA2 hB2
      refine ⟨ih.1, ih.2.1, ?_, ?_, ?_⟩
      · -- origin of each final entry
        intro e he
        rcases ih.2.2.1 e he with h | h | h
        · rcases mem_pushChildKey h with h1 | ⟨nd, hnd, rfl⟩
          · rcases mem_insertChild h1 with h2 | ⟨hfresh, rfl⟩
            · exact Or.inl h2
            · refine Or.inr (Or.inr ?_)
              have hc2q : c2 ∈ (if (g.lookup (stateKey false c2)).isSome then qAcc
                  else qAcc ++ [c2]) := by
                rw [if_neg (by rw [hfresh]; simp)]
                exact List.mem_append_right _ (List.mem_singleton.2 rfl)
              exact processMoves_queue_mono false s ck cd ms _ _ c2 hc2q
          · exact Or.inr (Or.inl rfl)
        · exact Or.inr (Or.inl h)
        · exact Or.inr (Or.inr h)
      · -- coverage of the whole move list
        intro m' hm' c' hc'
        rcases List.mem_cons.1 hm' with rfl | hmem
        · rw [hm] at hc'
          obtain rfl := Option.some.inj hc'
          refine processMoves_lookup_mono false s ck cd ms _ _ _ ?_
          rw [← hkey2, pushChildKey_lookup_isSome]
          exact insertChild_lookup_self g (stateKey false c2) c2 ck cd
        · exact ih.2.2.2.1 m' hmem c' hc'
      · -- every queued state ends up keyed
        intro hqk
        refine ih.2.2.2.2 ?_
        intro cq hcq
        have hmono : ∀ k, (g.lookup k).isSome = true →
            ((pushChildKey (insertChild g (stateKey false c2) c2 ck cd) ck
              (stateKey false c2)).lookup k).isSome = true := by
          intro k hk
          rw [pushChildKey_lookup_isSome]
          exact insertChild_lookup_mono _ _ _ _ hk
        split at hcq
        · exact hmono _ (hqk cq hcq)
        · rcases List.mem_append.1 hcq with h | h
          · exact hmono _ (hqk cq h)
          · rw [List.mem_singleton.1 h, ← hkey2, pushChildKey_lookup_isSome]
            exact insertChild_lookup_self g (stateKey false c2) c2 ck cd

/-! ### The breadth-first loop of buildTree -/

theorem nodup_lt_length_le {l : List Nat} (hn : l.Nodup) (hlt : ∀ k ∈ l, k < 19683) :
    l.length ≤ 19683 := by
  have hsub : l ⊆ List.range 19683 := fun k hk => List.mem_range.2 (hlt k hk)
  have := List.Subperm.length_le (List.subperm_of_subset hn hsub)
  simpa using this

theorem buildTreeLoop_isSome (u : Bool) :
    ∀ (fuel : Nat) (q : List Config) (g : Graph),
      (∀ c ∈ q, digit9 c) →
      (∀ k ∈ g.map Prod.fst, k < 19683) →
      (g.map Prod.fst).Nodup →
      q.length + (19683 - g.length) < fuel →
      (buildTreeLoop u fuel q g).isSome = true
  | 0, q, g => fun _ _ _ hf => absurd hf (by omega)
  | fuel + 1, [], g => fun _ _ _ _ => by rw [buildTreeLoop]; rfl
  | fuel + 1, s :: rest, g => fun hq hk hn hf => by
    rw [buildTreeLoop]
    cases hlook : g.lookup (stateKey u s) with
    | none =>
      refine buildTreeLoop_isSome u fuel rest g
        (fun c hc => hq c (List.mem_cons_of_mem _ hc)) hk hn ?_
      simp only [List.length_cons] at hf
      omega
    | some nd =>
      show (if isTerminal s then buildTreeLoop u fuel rest g
        else buildTreeLoop u fuel
          (rest ++ (processMoves u s (stateKey u s) nd.depth (getPossibleMoves s) g []).2)
          (processMoves u s (stateKey u s) nd.depth (getPossibleMoves s) g []).1).isSome = true
      split
      case isTrue =>
        refine buildTreeLoop_isSome u fuel rest g
          (fun c hc => hq c (List.mem_cons_of_mem _ hc)) hk hn ?_
        simp only [List.length_cons] at hf
        omega
      case isFalse =>
        have hd9 : digit9 s := hq s (List.mem_cons_self _ _)
        have pmf := processMoves_fuel u s (stateKey u s) nd.depth hd9
          (getPossibleMoves s) g [] hk hn (fun c hc => absurd hc (List.not_mem_nil c))
        refine buildTreeLoop_isSome u fuel
          (rest ++ (processMoves u s (stateKey u s) nd.depth (getPossibleMoves s) g []).2)
          (processMoves u s (stateKey u s) nd.depth (getPossibleMoves s) g []).1
          ?_ pmf.1 pmf.2.1 ?_
        · intro c hc
          rcases List.mem_append.1 hc with h | h
          · exact hq c (List.mem_cons_of_mem _ h)
          · exact pmf.2.2.1 c h
        · have hglen : g.length ≤ 19683 := by
            have hg1 : g.length = (g.map Prod.fst).length := (List.length_map _ _).symm
            rw [hg1]
            exact nodup_lt_length_le hn hk
          have hglen2 : (processMoves u s (stateKey u s) nd.depth
              (getPossibleMoves s) g []).1.length ≤ 19683 := by
            have hg2 : (processMoves u s (stateKey u s) nd.depth
                (getPossibleMoves s) g []).1.length =
                ((processMoves u s (stateKey u s) nd.depth
                  (getPossibleMoves s) g []).1.map Prod.fst).length :=
              (List.length_map _ _).symm
            rw [hg2]
            exact nodup_lt_length_le pmf.2.1 pmf.1
          have hlen := pmf.2.2.2
          rw [List.length_append]
          simp only [List.length_cons, List.length_nil] at hf hlen
          omega

theorem reachable_digit9 {c : Config} (h : Reachable c) : digit9 c := by
  induction h with
  | root => exact ⟨rfl, by decide⟩
  | step hprev hmove ih => exact makeMove_digit9 ih hmove

theorem buildTreeLoop_graphInv :
    ∀ (fuel : Nat) (q : List Config) (g g' : Graph),
      graphInv g q →
      buildTreeLoop false fuel q g = some g' →
      graphInv g' []
  | 0, q, g, g' => fun _ h => by
    rw [buildTreeLoop] at h
    exact absurd h (by simp)
  | fuel + 1, [], g, g' => fun hinv h => by
    rw [buildTreeLoop] at h
    obtain rfl := Option.some.inj h
    exact hinv
  | fuel + 1, s :: rest, g, g' => fun hinv h => by
    rw [buildTreeLoop] at h
    simp only [stateKey_false] at h
    obtain ⟨hent, hnd, hroot, hque, hclo⟩ := hinv
    have hsq := hque s (List.mem_cons_self _ _)
    have hd9 : digit9 s := hsq.1
    cases hlook : g.lookup (ofDigits3 s) with
    | none =>
      rw [hlook] at hsq
      exact absurd hsq.2.2 (by simp)
    | some nd =>
      rw [hlook] at h
      simp only [] at h
      split at h
      case isTrue htm =>
        refine buildTreeLoop_graphInv fuel rest g g' ⟨hent, hnd, hroot, ?_, ?_⟩ h
        · exact fun c hc => hque c (List.mem_cons_of_mem _ hc)
        · intro e he
          rcases hclo e he with h1 | h1 | h1
          · exact Or.inl h1
          · rcases List.mem_cons.1 h1 with h2 | h2
            · rw [h2, htm]
              exact Or.inl rfl
            · exact Or.inr (Or.inl h2)
          · exact Or.inr (Or.inr h1)
      case isFalse htm =>
        have hsnt : isTerminal s = false := Bool.eq_false_iff.2 htm
        have hrs : Reachable s := hsq.2.1
        have hkB : ∀ k ∈ g.map Prod.fst, k < 19683 := by
          intro k hkm
          obtain ⟨e, he, rfl⟩ := List.mem_map.1 hkm
          have h1 := hent e he
          rw [h1.2.1]
          exact ofDigits3_lt_of_digit9 h1.1
        have pmi := processMoves_inv s (ofDigits3 s) nd.depth rfl hd9 hrs hsnt
          (getPossibleMoves s) g [] hent (fun c hc => absurd hc (List.not_mem_nil c))
        have pmf := processMoves_fuel false s (ofDigits3 s) nd.depth hd9
          (getPossibleMoves s) g [] hkB hnd (fun c hc => absurd hc (List.not_mem_nil c))
        have hmono : ∀ k, (g.lookup k).isSome = true →
            ((processMoves false s (ofDigits3 s) nd.depth
              (getPossibleMoves s) g []).1.lookup k).isSome = true :=
          fun k hk2 => processMoves_lookup_mono false s (ofDigits3 s) nd.depth
            (getPossibleMoves s) g [] k hk2
        have hcov : ∀ m c', makeMove s m = some c' →
            ((processMoves false s (ofDigits3 s) nd.depth
              (getPossibleMoves s) g []).1.lookup (ofDigits3 c')).isSome = true := by
          intro m c' hc'
          exact pmi.2.2.2.1 m (makeMove_mem_moves hc') c' hc'
        refine buildTreeLoop_graphInv fuel
          (rest ++ (processMoves false s (ofDigits3 s) nd.depth
            (getPossibleMoves s) g []).2)
          (processMoves false s (ofDigits3 s) nd.depth (getPossibleMoves s) g []).1
          g' ⟨pmi.1, pmf.2.1, ?_, ?_, ?_⟩ h
        · exact hmono _ hroot
        · intro c hc
          rcases List.mem_append.1 hc with h1 | h1
          · have h2 := hque c (List.mem_cons_of_mem _ h1)
            exact ⟨h2.1, h2.2.1, hmono _ h2.2.2⟩
          · refine ⟨(pmi.2.1 c h1).1, (pmi.2.1 c h1).2, ?_⟩
            exact pmi.2.2.2.2 (fun cq hcq => absurd hcq (List.not_mem_nil cq)) c h1
        · intro e he
          rcases pmi.2.2.1 e he with h1 | h1 | h1
          · rcases hclo e h1 with h2 | h2 | h2
            · exact Or.inl h2
            · rcases List.mem_cons.1 h2 with h3 | h3
              · refine Or.inr (Or.inr ?_)
                intro m c' hc'
                rw [h3] at hc'
                exact hcov m c' hc'
              · exact Or.inr (Or.inl (List.mem_append_left _ h3))
            · exact Or.inr (Or.inr (fun m c' hc' => hmono _ (h2 m c' hc')))
          · have h2 := pmi.1 e he
            have h3 : e.2.stateC = s := by
              refine ofDigits3_injOn h2.1 hd9 ?_
              rw [← h2.2.1, h1]
            refine Or.inr (Or.inr ?_)
            intro m c' hc'
            rw [h3] at hc'
            exact hcov m c' hc'
          · exact Or.inr (Or.inl (List.mem_append_right _ h1))

theorem buildTree_isSome (u : Bool) : (buildTree 20000 u).isSome = true := by
  rw [buildTree]
  refine buildTreeLoop_isSome u 20000 [emptyBoard] _ ?_ ?_ ?_ ?_
  · intro c hc
    rw [List.mem_singleton] at hc
    subst hc
    exact ⟨rfl, by decide⟩
  · intro k hk
    simp only [List.map_cons, List.map_nil, List.mem_singleton] at hk
    subst hk
    exact ofDigits3_lt_of_digit9 ⟨rfl, by decide⟩
  · simp
  · simp

/-- C7: `buildTree(false)` from the empty board succeeds, the key set of the
resulting graph is exactly the set of encoded ids of the states reachable from
the empty board by legal `makeMove` sequences, and every node holding a
terminal state has an empty children list. -/
theorem c7_buildTree_false_keys :
    ∃ g, buildTree 20000 false = some g ∧
      (∀ k, k ∈ g.map Prod.fst ↔ ∃ c, Reachable c ∧ ofDigits3 c = k) ∧
      (∀ e ∈ g, isTerminal e.2.stateC = true → e.2.children = []) := by
  have hinit : graphInv [(ofDigits3 emptyBoard, ⟨emptyBoard, none, [], 0⟩)] [emptyBoard] := by
    refine ⟨?_, ?_, ?_, ?_, ?_⟩
    · intro e he
      rw [List.mem_singleton] at he
      subst he
      exact ⟨⟨rfl, by decide⟩, rfl, Reachable.root, fun _ => rfl⟩
    · simp
    · rw [List.lookup_cons]
      simp
    · intro c hc
      rw [List.mem_singleton] at hc
      subst hc
      refine ⟨⟨rfl, by decide⟩, Reachable.root, ?_⟩
      rw [List.lookup_cons]
      simp
    · intro e he
      rw [List.mem_singleton] at he
      subst he
      exact Or.inr (Or.inl (List.mem_singleton.2 rfl))
  have hsome := buildTree_isSome false
  obtain ⟨g, hg⟩ := Option.isSome_iff_exists.1 hsome
  have hinv : graphInv g [] := by
    refine buildTreeLoop_graphInv 20000 [emptyBoard] _ g hinit ?_
    rw [buildTree] at hg
    exact hg
  obtain ⟨hent, hnd, hroot, hque, hclo⟩ := hinv
  refine ⟨g, hg, ?_, ?_⟩
  · intro k
    constructor
    · intro hk
      obtain ⟨e, he, rfl⟩ := List.mem_map.1 hk
      have h1 := hent e he
      exact ⟨e.2.stateC, h1.2.2.1, h1.2.1.symm⟩
    · rintro ⟨c, hc, rfl⟩
      rw [← lookup_isSome_iff]
      induction hc with
      | root => exact hroot
      | @step cp cn mv hprev hmove ih =>
        obtain ⟨nd, hnd2⟩ := Option.isSome_iff_exists.1 ih
        have hmem := lookup_eq_some_mem hnd2
        have hok := hent _ hmem
        have hid : nd.stateC = cp :=
          (ofDigits3_injOn hok.1 (reachable_digit9 hprev) hok.2.1.symm)
        rcases hclo _ hmem with h1 | h1 | h1
        · rw [hid] at h1
          have := (makeMove_eq_some.1 hmove).2.1
          rw [h1] at this
          exact absurd this (by simp)
        · exact absurd h1 (List.not_mem_nil _)
        · rw [hid] at h1
          exact h1 mv cn hmove
  · intro e he
    exact (hent e he).2.2.2

/-- C8: the breadth-first construction of the game tree terminates in both key
modes (raw ids and canonical forms), and along every edge the move produces a
child whose turn count is exactly one larger than the parent's and never
exceeds 9, so the traversal can create no cycle. -/
theorem c8_buildTree_termination :
    (buildTree 20000 false).isSome = true ∧ (buildTree 20000 true).isSome = true ∧
    (∀ (c : Config) (m : Nat) (c' : Config), makeMove c m = some c' →
      turnCount c' = turnCount c + 1 ∧ turnCount c' ≤ 9) :=
  ⟨buildTree_isSome false, buildTree_isSome true, fun _ _ _ h => makeMove_turnCount h⟩

/-- Witness for C8: the first move from the empty board. -/
theorem c8_witness :
    makeMove emptyBoard 0 = some [1, 0, 0, 0, 0, 0, 0, 0, 0] ∧
    turnCount [1, 0, 0, 0, 0, 0, 0, 0, 0] = turnCount emptyBoard + 1 ∧
    turnCount [1, 0, 0, 0, 0, 0, 0, 0, 0] ≤ 9 := by
  have hm : makeMove emptyBoard 0 = some [1, 0, 0, 0, 0, 0, 0, 0, 0] := by decide
  exact ⟨hm, c8_buildTree_termination.2.2 emptyBoard 0 _ hm⟩

/-! ### The game value and the memoized minimax -/

theorem xForcesB_terminal {c : Config} (h : isTerminal c = true) :
    ∀ n, xForcesB n c = (winners c).contains 1
  | 0 => rfl
  | n + 1 => by rw [xForcesB, if_pos h]

theorem oForcesB_terminal {c : Config} (h : isTerminal c = true) :
    ∀ n, oForcesB n c = (winners c).contains 2
  | 0 => rfl
  | n + 1 => by rw [oForcesB, if_pos h]

theorem scoreOf_terminal {c : Config} (h : isTerminal c = true) :
    scoreOf c = if (winners c).contains 1 then (1 : Int)
      else if (winners c).contains 2 then -1 else 0 := by
  rw [scoreOf, xForcesB_terminal h, oForcesB_terminal h]

theorem scoreOf_bounds (c : Config) : -1 ≤ scoreOf c ∧ scoreOf c ≤ 1 := by
  rw [scoreOf]
  split_ifs <;> omega

theorem scoreOf_cases (c : Config) : scoreOf c = 1 ∨ scoreOf c = 0 ∨ scoreOf c = -1 := by
  rw [scoreOf]
  split_ifs <;> simp

theorem scoreOf_eq_one_iff (c : Config) :
    scoreOf c = 1 ↔ xForcesB (c.count 0) c = true := by
  rw [scoreOf]
  split_ifs with h1 h2
  · simp [h1]
  · exact ⟨fun h => absurd h (by decide), fun h => absurd h h1⟩
  · exact ⟨fun h => absurd h (by decide), fun h => absurd h h1⟩

theorem scoreOf_eq_negone_iff (c : Config) :
    scoreOf c = -1 ↔
      (xForcesB (c.count 0) c = false ∧ oForcesB (c.count 0) c = true) := by
  rw [scoreOf]
  split_ifs with h1 h2
  · exact ⟨fun h => absurd h (by decide), fun h => by rw [h1] at h; exact absurd h.1 (by simp)⟩
  · exact ⟨fun _ => ⟨Bool.eq_false_iff.2 h1, h2⟩, fun _ => rfl⟩
  · exact ⟨fun h => absurd h (by decide), fun h => absurd h.2 h2⟩

theorem scoreOf_eq_zero_iff (c : Config) :
    scoreOf c = 0 ↔
      (xForcesB (c.count 0) c = false ∧ oForcesB (c.count 0) c = false) := by
  rw [scoreOf]
  split_ifs with h1 h2
  · exact ⟨fun h => absurd h (by decide), fun h => by rw [h1] at h; exact absurd h.1 (by simp)⟩
  · exact ⟨fun h => absurd h (by decide), fun h => by rw [h2] at h; exact absurd h.2 (by simp)⟩
  · exact ⟨fun _ => ⟨Bool.eq_false_iff.2 h1, Bool.eq_false_iff.2 h2⟩, fun _ => rfl⟩

theorem not_both_winners {c : Config} (hv : isValidFirstPlayerX c = true) :
    ¬((winners c).contains 1 = true ∧ (winners c).contains 2 = true) := by
  rintro ⟨h1, h2⟩
  have m1 : (1 : Nat) ∈ winners c := List.elem_iff.1 h1
  have m2 : (2 : Nat) ∈ winners c := List.elem_iff.1 h2
  exact ((isValidFirstPlayerX_iff c).1 hv).2.1
    ⟨(winners_mem_iff_hasLine (by omega)).1 m1, (winners_mem_iff_hasLine (by omega)).1 m2⟩

theorem child_of_move {c : Config} {m : Nat} (hd : digit9 c)
    (hv : isValidFirstPlayerX c = true) (hm : m ∈ getPossibleMoves c) :
    ∃ c2, makeMove c m = some c2 ∧ childScore c m = scoreOf c2 ∧
      c2.count 0 + 1 = c.count 0 ∧ digit9 c2 ∧ isValidFirstPlayerX c2 = true := by
  obtain ⟨hval, hterm, hget⟩ := mem_getPossibleMoves.1 hm
  have hmk : makeMove c m = some (c.set m ((nextPlayer c).getD 1)) :=
    makeMove_eq_some.2 ⟨hval, hterm, hget, rfl⟩
  exact ⟨_, hmk, by rw [childScore, hmk], makeMove_count0 hmk,
    makeMove_digit9 hd hmk, child_validFPX hd hv hmk⟩

theorem forces_exclusive :
    ∀ (n : Nat) (c : Config), c.count 0 = n → digit9 c → isValidFirstPlayerX c = true →
      ¬(xForcesB n c = true ∧ oForcesB n c = true)
  | 0, c => fun hc0 hd hv ⟨hx, ho⟩ => by
    rw [xForcesB] at hx
    rw [oForcesB] at ho
    exact not_both_winners hv ⟨hx, ho⟩
  | n + 1, c => fun hc0 hd hv ⟨hx, ho⟩ => by
    rw [xForcesB] at hx
    rw [oForcesB] at ho
    by_cases hterm : isTerminal c = true
    · rw [if_pos hterm] at hx ho
      exact not_both_winners hv ⟨hx, ho⟩
    · rw [if_neg hterm] at hx ho
      by_cases hturn : (nextPlayerFirstPlayerX c == some 1) = true
      · rw [if_pos hturn] at hx ho
        obtain ⟨m, hmm, hfm⟩ := List.any_eq_true.1 hx
        rw [Bool.and_eq_true] at ho
        have hall := List.all_eq_true.1 ho.2 m hmm
        obtain ⟨c2, hmk, -, hcnt, hd2, hv2⟩ := child_of_move hd hv hmm
        rw [hmk] at hfm hall
        exact forces_exclusive n c2 (by omega) hd2 hv2 ⟨hfm, hall⟩
      · rw [if_neg hturn] at hx ho
        obtain ⟨m, hmm, hfm⟩ := List.any_eq_true.1 ho
        rw [Bool.and_eq_true] at hx
        have hall := List.all_eq_true.1 hx.2 m hmm
        obtain ⟨c2, hmk, -, hcnt, hd2, hv2⟩ := child_of_move hd hv hmm
        rw [hmk] at hfm hall
        exact forces_exclusive n c2 (by omega) hd2 hv2 ⟨hall, hfm⟩

theorem foldl_imax_map (f : Nat → Int) :
    ∀ (l : List Nat) (a : Int),
      l.foldl (fun acc m => max acc (f m)) a = (l.map f).foldl max a
  | [], _ => rfl
  | x :: l, a => by
    rw [List.foldl_cons, List.map_cons, List.foldl_cons]
    exact foldl_imax_map f l (max a (f x))

theorem imax_le_foldl : ∀ (l : List Int) (a : Int), a ≤ l.foldl max a
  | [], a => le_refl a
  | x :: l, a => by
    rw [List.foldl_cons]
    exact le_trans (le_max_left a x) (imax_le_foldl l (max a x))

theorem mem_le_foldl_imax : ∀ (l : List Int) (a x : Int), x ∈ l → x ≤ l.foldl max a
  | [], _, x => fun h => absurd h (List.not_mem_nil x)
  | y :: l, a, x => fun h => by
    rw [List.foldl_cons]
    rcases List.mem_cons.1 h with rfl | h2
    · exact le_trans (le_max_right a x) (imax_le_foldl l _)
    · exact mem_le_foldl_imax l _ x h2

theorem foldl_imax_le : ∀ (l : List Int) (a b : Int), a ≤ b → (∀ x ∈ l, x ≤ b) →
    l.foldl max a ≤ b
  | [], a, b => fun h _ => h
  | y :: l, a, b => fun h hall => by
    rw [List.foldl_cons]
    exact foldl_imax_le l _ b (max_le h (hall y (List.mem_cons_self _ _)))
      (fun x hx => hall x (List.mem_cons_of_mem _ hx))

theorem foldl_imin_map (f : Nat → Int) :
    ∀ (l : List Nat) (a : Int),
      l.foldl (fun acc m => min acc (f m)) a = (l.map f).foldl min a
  | [], _ => rfl
  | x :: l, a => by
    rw [List.foldl_cons, List.map_cons, List.foldl_cons]
    exact foldl_imin_map f l (min a (f x))

theorem foldl_imin_le_init : ∀ (l : List Int) (a : Int), l.foldl min a ≤ a
  | [], a => le_refl a
  | x :: l, a => by
    rw [List.foldl_cons]
    exact le_trans (foldl_imin_le_init l (min a x)) (min_le_left a x)

theorem foldl_imin_le_mem : ∀ (l : List Int) (a x : Int), x ∈ l → l.foldl min a ≤ x
  | [], _, x => fun h => absurd h (List.not_mem_nil x)
  | y :: l, a, x => fun h => by
    rw [List.foldl_cons]
    rcases List.mem_cons.1 h with rfl | h2
    · exact le_trans (foldl_imin_le_init l _) (min_le_right a x)
    · exact foldl_imin_le_mem l _ x h2

theorem le_foldl_imin : ∀ (l : List Int) (a b : Int), b ≤ a → (∀ x ∈ l, b ≤ x) →
    b ≤ l.foldl min a
  | [], a, b => fun h _ => h
  | y :: l, a, b => fun h hall => by
    rw [List.foldl_cons]
    exact le_foldl_imin l _ b (le_min h (hall y (List.mem_cons_self _ _)))
      (fun x hx => hall x (List.mem_cons_of_mem _ hx))

theorem scoreOf_nonterminal_max {c : Config} {n : Nat} (hd : digit9 c)
    (hv : isValidFirstPlayerX c = true) (hterm : isTerminal c = false)
    (hc0 : c.count 0 = n + 1) (hturn : (nextPlayerFirstPlayerX c == some 1) = true) :
    (getPossibleMoves c).foldl (fun acc m => max acc (childScore c m)) (-2) = scoreOf c := by
  have hvl : isValid c = true := digit9_isValid hd hv
  have hne : getPossibleMoves c ≠ [] := moves_nonempty hvl hterm
  rw [foldl_imax_map]
  have hLne : (getPossibleMoves c).map (childScore c) ≠ [] := by
    simpa using hne
  have hxunf : xForcesB (c.count 0) c =
      (getPossibleMoves c).any (fun m => match makeMove c m with
        | some c2 => xForcesB n c2
        | none => false) := by
    rw [hc0, xForcesB, if_neg (by simp [hterm]), if_pos hturn]
  have hounf : oForcesB (c.count 0) c =
      (!(getPossibleMoves c).isEmpty && ((getPossibleMoves c).all fun m =>
        match makeMove c m with
        | some c2 => oForcesB n c2
        | none => true)) := by
    rw [hc0, oForcesB, if_neg (by simp [hterm]), if_pos hturn]
  have hall_le1 : ∀ x ∈ (getPossibleMoves c).map (childScore c), x ≤ 1 := by
    intro x hx
    obtain ⟨m', hm', rfl⟩ := List.mem_map.1 hx
    obtain ⟨c2', hmk', hcs', -, -, -⟩ := child_of_move hd hv hm'
    rw [hcs']
    exact (scoreOf_bounds c2').2
  by_cases hxf : xForcesB (c.count 0) c = true
  · rw [(scoreOf_eq_one_iff c).2 hxf]
    rw [hxunf] at hxf
    obtain ⟨m, hmm, hfm⟩ := List.any_eq_true.1 hxf
    obtain ⟨c2, hmk, hcs, hcnt, hd2, hv2⟩ := child_of_move hd hv hmm
    rw [hmk] at hfm
    have h1 : childScore c m = 1 := by
      rw [hcs]
      refine (scoreOf_eq_one_iff c2).2 ?_
      have hn2 : c2.count 0 = n := by omega
      rw [hn2]
      exact hfm
    have hge : (1 : Int) ≤ ((getPossibleMoves c).map (childScore c)).foldl max (-2) := by
      refine mem_le_foldl_imax _ _ _ ?_
      rw [← h1]
      exact List.mem_map_of_mem _ hmm
    have hle := foldl_imax_le ((getPossibleMoves c).map (childScore c)) (-2) 1
      (by decide) hall_le1
    omega
  · have hxf' : xForcesB (c.count 0) c = false := Bool.eq_false_iff.2 hxf
    have hall0 : ∀ x ∈ (getPossibleMoves c).map (childScore c), x ≤ 0 := by
      intro x hx
      obtain ⟨m', hm', rfl⟩ := List.mem_map.1 hx
      obtain ⟨c2', hmk', hcs', hcnt', hd2', hv2'⟩ := child_of_move hd hv hm'
      rw [hcs']
      rcases scoreOf_cases c2' with h | h | h
      · exfalso
        have hxc2 := (scoreOf_eq_one_iff c2').1 h
        refine hxf ?_
        rw [hxunf]
        refine List.any_eq_true.2 ⟨m', hm', ?_⟩
        rw [hmk']
        have hn' : c2'.count 0 = n := by omega
        rw [← hn']
        exact hxc2
      · omega
      · omega
    by_cases hof : oForcesB (c.count 0) c = true
    · rw [(scoreOf_eq_negone_iff c).2 ⟨hxf', hof⟩]
      rw [hounf, Bool.and_eq_true] at hof
      have hallm1 : ∀ x ∈ (getPossibleMoves c).map (childScore c), x = -1 := by
        intro x hx
        obtain ⟨m', hm', rfl⟩ := List.mem_map.1 hx
        obtain ⟨c2', hmk', hcs', hcnt', hd2', hv2'⟩ := child_of_move hd hv hm'
        have hoc2 := List.all_eq_true.1 hof.2 m' hm'
        rw [hmk'] at hoc2
        have hn' : c2'.count 0 = n := by omega
        have hnx : xForcesB n c2' = false := by
          cases hxx : xForcesB n c2'
          · rfl
          · exact absurd ⟨hxx, hoc2⟩ (forces_exclusive n c2' hn' hd2' hv2')
        rw [hcs']
        refine (scoreOf_eq_negone_iff c2').2 ?_
        rw [hn']
        exact ⟨hnx, hoc2⟩
      obtain ⟨x0, hx0⟩ := List.exists_mem_of_ne_nil _ hLne
      have hge := mem_le_foldl_imax ((getPossibleMoves c).map (childScore c)) (-2) x0 hx0
      have hle := foldl_imax_le ((getPossibleMoves c).map (childScore c)) (-2) (-1)
        (by decide) (fun x hx => le_of_eq (hallm1 x hx))
      have hx0v := hallm1 x0 hx0
      omega
    · have hof' : oForcesB (c.count 0) c = false := Bool.eq_false_iff.2 hof
      rw [(scoreOf_eq_zero_iff c).2 ⟨hxf', hof'⟩]
      rw [hounf] at hof'
      have hisE : (getPossibleMoves c).isEmpty = false := by
        cases hE : (getPossibleMoves c).isEmpty
        · rfl
        · exact absurd (List.isEmpty_iff.1 hE) hne
      rw [hisE] at hof'
      simp only [Bool.not_false, Bool.true_and] at hof'
      obtain ⟨m', hm', hno⟩ := List.all_eq_false.1 hof'
      obtain ⟨c2', hmk', hcs', hcnt', hd2', hv2'⟩ := child_of_move hd hv hm'
      rw [hmk'] at hno
      have hn' : c2'.count 0 = n := by omega
      have hsc2 : childScore c m' = 0 := by
        rw [hcs']
        refine (scoreOf_eq_zero_iff c2').2 ?_
        rw [hn']
        refine ⟨?_, Bool.eq_false_iff.2 hno⟩
        cases hxx : xForcesB n c2'
        · rfl
        · exfalso
          refine hxf ?_
          rw [hxunf]
          refine List.any_eq_true.2 ⟨m', hm', ?_⟩
          rw [hmk']
          exact hxx
      have hge := mem_le_foldl_imax ((getPossibleMoves c).map (childScore c)) (-2) 0
        (by rw [← hsc2]; exact List.mem_map_of_mem _ hm')
      have hle := foldl_imax_le ((getPossibleMoves c).map (childScore c)) (-2) 0
        (by decide) hall0
      omega

theorem scoreOf_nonterminal_min {c : Config} {n : Nat} (hd : digit9 c)
    (hv : isValidFirstPlayerX c = true) (hterm : isTerminal c = false)
    (hc0 : c.count 0 = n + 1) (hturn : (nextPlayerFirstPlayerX c == some 1) = false) :
    (getPossibleMoves c).foldl (fun acc m => min acc (childScore c m)) 2 = scoreOf c := by
  have hvl : isValid c = true := digit9_isValid hd hv
  have hne : getPossibleMoves c ≠ [] := moves_nonempty hvl hterm
  rw [foldl_imin_map]
  have hLne : (getPossibleMoves c).map (childScore c) ≠ [] := by
    simpa using hne
  have hturn' : ¬((nextPlayerFirstPlayerX c == some 1) = true) := by
    rw [hturn]
    simp
  have hxunf : xForcesB (c.count 0) c =
      (!(getPossibleMoves c).isEmpty && ((getPossibleMoves c).all fun m =>
        match makeMove c m with
        | some c2 => xForcesB n c2
        | none => true)) := by
    rw [hc0, xForcesB, if_neg (by simp [hterm]), if_neg hturn']
  have hounf : oForcesB (c.count 0) c =
      (getPossibleMoves c).any (fun m => match makeMove c m with
        | some c2 => oForcesB n c2
        | none => false) := by
    rw [hc0, oForcesB, if_neg (by simp [hterm]), if_neg hturn']
  have hall_gem1 : ∀ x ∈ (getPossibleMoves c).map (childScore c), -1 ≤ x := by
    intro x hx
    obtain ⟨m', hm', rfl⟩ := List.mem_map.1 hx
    obtain ⟨c2', hmk', hcs', -, -, -⟩ := child_of_move hd hv hm'
    rw [hcs']
    exact (scoreOf_bounds c2').1
  by_cases hxf : xForcesB (c.count 0) c = true
  · rw [(scoreOf_eq_one_iff c).2 hxf]
    rw [hxunf, Bool.and_eq_true] at hxf
    have hall1 : ∀ x ∈ (getPossibleMoves c).map (childScore c), x = 1 := by
      intro x hx
      obtain ⟨m', hm', rfl⟩ := List.mem_map.1 hx
      obtain ⟨c2', hmk', hcs', hcnt', hd2', hv2'⟩ := child_of_move hd hv hm'
      have hxc2 := List.all_eq_true.1 hxf.2 m' hm'
      rw [hmk'] at hxc2
      have hn' : c2'.count 0 = n := by omega
      rw [hcs']
      refine (scoreOf_eq_one_iff c2').2 ?_
      rw [hn']
      exact hxc2
    obtain ⟨x0, hx0⟩ := List.exists_mem_of_ne_nil _ hLne
    have hle := foldl_imin_le_mem ((getPossibleMoves c).map (childScore c)) 2 x0 hx0
    have hge := le_foldl_imin ((getPossibleMoves c).map (childScore c)) 2 1
      (by decide) (fun x hx => ge_of_eq (hall1 x hx))
    have hx0v := hall1 x0 hx0
    omega
  · have hxf' : xForcesB (c.count 0) c = false := Bool.eq_false_iff.2 hxf
    by_cases hof : oForcesB (c.count 0) c = true
    · rw [(scoreOf_eq_negone_iff c).2 ⟨hxf', hof⟩]
      rw [hounf] at hof
      obtain ⟨m, hmm, hfm⟩ := List.any_eq_true.1 hof
      obtain ⟨c2, hmk, hcs, hcnt, hd2, hv2⟩ := child_of_move hd hv hmm
      rw [hmk] at hfm
      have hn2 : c2.count 0 = n := by omega
      have hnx : xForcesB n c2 = false := by
        cases hxx : xForcesB n c2
        · rfl
        · exact absurd ⟨hxx, hfm⟩ (forces_exclusive n c2 hn2 hd2 hv2)
      have h1 : childScore c m = -1 := by
        rw [hcs]
        refine (scoreOf_eq_negone_iff c2).2 ?_
        rw [hn2]
        exact ⟨hnx, hfm⟩
      have hle : ((getPossibleMoves c).map (childScore c)).foldl min 2 ≤ -1 := by
        refine foldl_imin_le_mem _ _ _ ?_
        rw [← h1]
        exact List.mem_map_of_mem _ hmm
      have hge := le_foldl_imin ((getPossibleMoves c).map (childScore c)) 2 (-1)
        (by decide) hall_gem1
      omega
    · have hof' : oForcesB (c.count 0) c = false := Bool.eq_false_iff.2 hof
      rw [(scoreOf_eq_zero_iff c).2 ⟨hxf', hof'⟩]
      have hall_ge0 : ∀ x ∈ (getPossibleMoves c).map (childScore c), 0 ≤ x := by
        intro x hx
        obtain ⟨m', hm', rfl⟩ := List.mem_map.1 hx
        obtain ⟨c2', hmk', hcs', hcnt', hd2', hv2'⟩ := child_of_move hd hv hm'
        rw [hcs']
        rcases scoreOf_cases c2' with h | h | h
        · omega
        · omega
        · exfalso
          have hn' : c2'.count 0 = n := by omega
          have hoc2 := (scoreOf_eq_negone_iff c2').1 h
          rw [hn'] at hoc2
          refine hof ?_
          rw [hounf]
          refine List.any_eq_true.2 ⟨m', hm', ?_⟩
          rw [hmk']
          exact hoc2.2
      rw [hxunf] at hxf'
      have hisE : (getPossibleMoves c).isEmpty = false := by
        cases hE : (getPossibleMoves c).isEmpty
        · rfl
        · exact absurd (List.isEmpty_iff.1 hE) hne
      rw [hisE] at hxf'
      simp only [Bool.not_false, Bool.true_and] at hxf'
      obtain ⟨m', hm', hno⟩ := List.all_eq_false.1 hxf'
      obtain ⟨c2', hmk', hcs', hcnt', hd2', hv2'⟩ := child_of_move hd hv hm'
      rw [hmk'] at hno
      have hn' : c2'.count 0 = n := by omega
      have hsc2 : childScore c m' = 0 := by
        rw [hcs']
        refine (scoreOf_eq_zero_iff c2').2 ?_
        rw [hn']
        refine ⟨Bool.eq_false_iff.2 hno, ?_⟩
        cases hxx : oForcesB n c2'
        · rfl
        · exfalso
          refine hof ?_
          rw [hounf]
          refine List.any_eq_true.2 ⟨m', hm', ?_⟩
          rw [hmk']
          exact hxx
      have hle := foldl_imin_le_mem ((getPossibleMoves c).map (childScore c)) 2 0
        (by rw [← hsc2]; exact List.mem_map_of_mem _ hm')
      have hge := le_foldl_imin ((getPossibleMoves c).map (childScore c)) 2 0
        (by decide) hall_ge0
      omega

theorem minimaxF_cacheHit {c : Config} {cache : Cache} {v : Int} (hd : digit9 c)
    (hcg : CacheGood cache) (hl : cache.lookup (ofDigits3 c) = some v) :
    v = scoreOf c := by
  obtain ⟨c0, hd0, hv0, hk0, hs0⟩ := hcg _ (lookup_eq_some_mem hl)
  have hcc : c0 = c := ofDigits3_injOn hd0 hd hk0.symm
  have hv2 : v = scoreOf c0 := hs0
  rw [hv2, hcc]

theorem foldMax_cache (n : Nat) (c : Config)
    (H : ∀ m ∈ getPossibleMoves c, ∀ c2, makeMove c m = some c2 →
      ∀ (cache : Cache), CacheGood cache →
        (minimaxF n c2 false cache).1 = scoreOf c2 ∧
        CacheGood (minimaxF n c2 false cache).2) :
    ∀ (ms : List Nat), (∀ m ∈ ms, m ∈ getPossibleMoves c) →
      ∀ (a : Int) (cache : Cache), CacheGood cache →
        (ms.foldl
          (fun p m =>
            match makeMove c m with
            | some c2 =>
              let r2 := minimaxF n c2 false p.2
              (max p.1 r2.1, r2.2)
            | none => p)
          (a, cache)).1 = ms.foldl (fun acc m => max acc (childScore c m)) a ∧
        CacheGood (ms.foldl
          (fun p m =>
            match makeMove c m with
            | some c2 =>
              let r2 := minimaxF n c2 false p.2
              (max p.1 r2.1, r2.2)
            | none => p)
          (a, cache)).2
  | [], _ => fun a cache hcg => ⟨rfl, hcg⟩
  | m :: ms, hms => fun a cache hcg => by
    have hmm := hms m (List.mem_cons_self _ _)
    obtain ⟨hval, hterm, hget⟩ := mem_getPossibleMoves.1 hmm
    have hmk : makeMove c m = some (c.set m ((nextPlayer c).getD 1)) :=
      makeMove_eq_some.2 ⟨hval, hterm, hget, rfl⟩
    have hH := H m hmm _ hmk cache hcg
    rw [List.foldl_cons, List.foldl_cons, hmk]
    simp only []
    rw [hH.1, childScore, hmk]
    simp only []
    exact foldMax_cache n c H ms (fun m' hm' => hms m' (List.mem_cons_of_mem _ hm'))
      (max a (scoreOf (c.set m ((nextPlayer c).getD 1)))) _ hH.2

theorem foldMin_cache (n : Nat) (c : Config)
    (H : ∀ m ∈ getPossibleMoves c, ∀ c2, makeMove c m = some c2 →
      ∀ (cache : Cache), CacheGood cache →
        (minimaxF n c2 true cache).1 = scoreOf c2 ∧
        CacheGood (minimaxF n c2 true cache).2) :
    ∀ (ms : List Nat), (∀ m ∈ ms, m ∈ getPossibleMoves c) →
      ∀ (a : Int) (cache : Cache), CacheGood cache →
        (ms.foldl
          (fun p m =>
            match makeMove c m with
            | some c2 =>
              let r2 := minimaxF n c2 true p.2
              (min p.1 r2.1, r2.2)
            | none => p)
          (a, cache)).1 = ms.foldl (fun acc m => min acc (childScore c m)) a ∧
        CacheGood (ms.foldl
          (fun p m =>
            match makeMove c m with
            | some c2 =>
              let r2 := minimaxF n c2 true p.2
              (min p.1 r2.1, r2.2)
            | none => p)
          (a, cache)).2
  | [], _ => fun a cache hcg => ⟨rfl, hcg⟩
  | m :: ms, hms => fun a cache hcg => by
    have hmm := hms m (List.mem_cons_self _ _)
    obtain ⟨hval, hterm, hget⟩ := mem_getPossibleMoves.1 hmm
    have hmk : makeMove c m = some (c.set m ((nextPlayer c).getD 1)) :=
      makeMove_eq_some.2 ⟨hval, hterm, hget, rfl⟩
    have hH := H m hmm _ hmk cache hcg
    rw [List.foldl_cons, List.foldl_cons, hmk]
    simp only []
    rw [hH.1, childScore, hmk]
    simp only []
    exact foldMin_cache n c H ms (fun m' hm' => hms m' (List.mem_cons_of_mem _ hm'))
      (min a (scoreOf (c.set m ((nextPlayer c).getD 1)))) _ hH.2

theorem minimaxF_spec :
    ∀ (n : Nat) (c : Config) (b : Bool) (cache : Cache),
      c.count 0 = n → digit9 c → isValidFirstPlayerX c = true → CacheGood cache →
      (minimaxF n c b cache).1 = scoreOf c ∧ CacheGood (minimaxF n c b cache).2
  | 0, c, b, cache => fun hc0 hd hv hcg => by
    rw [minimaxF]
    cases hl : cache.lookup (ofDigits3 c) with
    | some v =>
      simp only []
      exact ⟨minimaxF_cacheHit hd hcg hl, hcg⟩
    | none =>
      simp only []
      have hterm : isTerminal c = true := by
        rw [isTerminal_iff]
        exact ⟨digit9_isValid hd hv, Or.inr hc0⟩
      rw [if_pos hterm]
      refine ⟨?_, ?_⟩
      · show (if (winners c).contains 1 then (1 : Int)
          else if (winners c).contains 2 then -1 else 0) = scoreOf c
        rw [scoreOf_terminal hterm]
      · intro e he
        rcases List.mem_cons.1 he with rfl | he2
        · exact ⟨c, hd, hv, rfl, (scoreOf_terminal hterm).symm⟩
        · exact hcg e he2
  | n + 1, c, b, cache => fun hc0 hd hv hcg => by
    rw [minimaxF]
    cases hl : cache.lookup (ofDigits3 c) with
    | some v =>
      simp only []
      exact ⟨minimaxF_cacheHit hd hcg hl, hcg⟩
    | none =>
      simp only []
      by_cases hterm : isTerminal c = true
      · rw [if_pos hterm]
        refine ⟨?_, ?_⟩
        · show (if (winners c).contains 1 then (1 : Int)
            else if (winners c).contains 2 then -1 else 0) = scoreOf c
          rw [scoreOf_terminal hterm]
        · intro e he
          rcases List.mem_cons.1 he with rfl | he2
          · exact ⟨c, hd, hv, rfl, (scoreOf_terminal hterm).symm⟩
          · exact hcg e he2
      · have htermf : isTerminal c = false := Bool.eq_false_iff.2 hterm
        rw [if_neg hterm]
        have Hfalse : ∀ m ∈ getPossibleMoves c, ∀ c2, makeMove c m = some c2 →
            ∀ (cache' : Cache), CacheGood cache' →
              (minimaxF n c2 false cache').1 = scoreOf c2 ∧
              CacheGood (minimaxF n c2 false cache').2 := by
          intro m hm c2 hmk cache' hcg'
          have hcnt := makeMove_count0 hmk
          exact minimaxF_spec n c2 false cache' (by omega)
            (makeMove_digit9 hd hmk) (child_validFPX hd hv hmk) hcg'
        have Htrue : ∀ m ∈ getPossibleMoves c, ∀ c2, makeMove c m = some c2 →
            ∀ (cache' : Cache), CacheGood cache' →
              (minimaxF n c2 true cache').1 = scoreOf c2 ∧
              CacheGood (minimaxF n c2 true cache').2 := by
          intro m hm c2 hmk cache' hcg'
          have hcnt := makeMove_count0 hmk
          exact minimaxF_spec n c2 true cache' (by omega)
            (makeMove_digit9 hd hmk) (child_validFPX hd hv hmk) hcg'
        by_cases hturn : (nextPlayerFirstPlayerX c == some 1) = true
        · rw [if_pos hturn]
          have hf := foldMax_cache n c Hfalse (getPossibleMoves c)
            (fun m hm => hm) (-2) cache hcg
          have hs := hf.1.trans (scoreOf_nonterminal_max hd hv htermf hc0 hturn)
          refine ⟨hs, ?_⟩
          intro e he
          rcases List.mem_cons.1 he with rfl | he2
          · exact ⟨c, hd, hv, rfl, hs⟩
          · exact hf.2 e he2
        · have hturnf : (nextPlayerFirstPlayerX c == some 1) = false :=
            Bool.eq_false_iff.2 hturn
          rw [if_neg hturn]
          have hf := foldMin_cache n c Htrue (getPossibleMoves c)
            (fun m hm => hm) 2 cache hcg
          have hs := hf.1.trans (scoreOf_nonterminal_min hd hv htermf hc0 hturnf)
          refine ⟨hs, ?_⟩
          intro e he
          rcases List.mem_cons.1 he with rfl | he2
          · exact ⟨c, hd, hv, rfl, hs⟩
          · exact hf.2 e he2

/-- C9: on every well-formed strictly valid state, the memoized minimax search
(invoked as the loader does, with fuel covering all empty cells and the shared
cache initially empty) terminates with a score in {-1, 0, 1}, and the score is
1 exactly when X can force a win from the state, -1 exactly when O can force a
win, and 0 exactly when neither side can (optimal play ends in a draw). -/
theorem c9_minimax_value :
    ∀ c : Config, digit9 c → isValidFirstPlayerX c = true →
      ((minimax c (nextPlayerFirstPlayerX c == some 1) []).1 = 1 ∨
       (minimax c (nextPlayerFirstPlayerX c == some 1) []).1 = 0 ∨
       (minimax c (nextPlayerFirstPlayerX c == some 1) []).1 = -1) ∧
      ((minimax c (nextPlayerFirstPlayerX c == some 1) []).1 = 1 ↔ xForcesWin c) ∧
      ((minimax c (nextPlayerFirstPlayerX c == some 1) []).1 = -1 ↔ oForcesWin c) ∧
      ((minimax c (nextPlayerFirstPlayerX c == some 1) []).1 = 0 ↔
        ¬xForcesWin c ∧ ¬oForcesWin c) := by
  intro c hd hv
  have hcg : CacheGood [] := fun e he => absurd he (List.not_mem_nil e)
  have hm := minimaxF_spec (c.count 0) c (nextPlayerFirstPlayerX c == some 1) []
    rfl hd hv hcg
  rw [minimax, hm.1]
  refine ⟨scoreOf_cases c, ?_, ?_, ?_⟩
  · rw [scoreOf_eq_one_iff]
    exact Iff.rfl
  · rw [scoreOf_eq_negone_iff]
    constructor
    · exact fun h => h.2
    · intro ho
      have ho' : oForcesB (c.count 0) c = true := ho
      refine ⟨?_, ho'⟩
      cases hxx : xForcesB (c.count 0) c
      · rfl
      · exact absurd ⟨hxx, ho'⟩ (forces_exclusive (c.count 0) c rfl hd hv)
  · rw [scoreOf_eq_zero_iff]
    constructor
    · rintro ⟨h1, h2⟩
      constructor
      · intro hw
        have hw' : xForcesB (c.count 0) c = true := hw
        rw [h1] at hw'
        exact absurd hw' (by simp)
      · intro hw
        have hw' : oForcesB (c.count 0) c = true := hw
        rw [h2] at hw'
        exact absurd hw' (by simp)
    · rintro ⟨h1, h2⟩
      exact ⟨Bool.eq_false_iff.2 h1, Bool.eq_false_iff.2 h2⟩

/-- Witness for C9 at a terminal board in which X owns the top row. -/
theorem c9_witness :
    digit9 [1, 1, 1, 2, 2, 0, 0, 0, 0] ∧
    isValidFirstPlayerX [1, 1, 1, 2, 2, 0, 0, 0, 0] = true ∧
    ((minimax [1, 1, 1, 2, 2, 0, 0, 0, 0]
        (nextPlayerFirstPlayerX [1, 1, 1, 2, 2, 0, 0, 0, 0] == some 1) []).1 = 1 ↔
      xForcesWin [1, 1, 1, 2, 2, 0, 0, 0, 0]) := by
  refine ⟨⟨rfl, by decide⟩, by decide, ?_⟩
  exact (c9_minimax_value [1, 1, 1, 2, 2, 0, 0, 0, 0] ⟨rfl, by decide⟩ (by decide)).2.1

end TicTacToe

